import Mathlib

/-!
Verification of the query-interpretation, multi-strategy lookup,
result-merging and ranking engine of the Cree intelligent dictionary.

The embedding follows the Python source:
  * `src/src/CreeDictionary/API/search/core.py`   (class SearchRun)
  * `src/src/CreeDictionary/API/search/lookup.py` (fetch_results, fetch_preverbs)
  * `src/CreeDictionary/API/search/query.py`      (class Query)
  * `src/src/morphodict/lexicon/models.py`        (Wordform, WordformKey)

Parts of the repository that the claims depend on but whose code is not
present under `src/` (the `types.Result` evidence bag and ordering, the
`get_modified_distance` edit distance, `to_sro_circumflex`,
`remove_cree_diacritics`, the `RichAnalysis` operations and the cached
preverb index) are modelled from the specification; each such definition
carries a doc comment starting with `Modelled from the spec:`.

Python's `lemma` identifier is a Lean keyword, so the corresponding fields
are named `lemmaText` (on analyses) and `lemmaRef` (on wordforms); the
`lemma` foreign key of the Django model is represented by the identity
(`WordformKey`) of the referenced lemma wordform.
-/

/-- Modelled from the spec: an Analysis is "a tag sequence with a derivable
lemma text, a `smushed` canonical string form, and a tag-intersection-count
operation against another Analysis" (`morphodict.analysis.RichAnalysis` is
not under `src/`).  The tag sequence is split around the lemma, mirroring
the `(prefix tags, lemma, suffix tags)` triple stored in `raw_analysis`. -/
structure RichAnalysis where
  prefixTags : List String
  lemmaText : String
  suffixTags : List String
deriving DecidableEq

/-- Modelled from the spec: the "smushed" canonical string form of an
analysis, used as the key for strict generation. -/
def RichAnalysis.smushed (a : RichAnalysis) : String :=
  String.join a.prefixTags ++ a.lemmaText ++ String.join a.suffixTags

/-- Modelled from the spec: the tag-intersection-count operation of an
analysis against another analysis (the count of this analysis's tags that
also occur among the other's tags); `other = none` contributes no tags. -/
def RichAnalysis.tagIntersectionCount (a : RichAnalysis) (other : Option RichAnalysis) : Nat :=
  match other with
  | none => 0
  | some b =>
    ((a.prefixTags ++ a.suffixTags).filter
      (fun t => t ∈ b.prefixTags ++ b.suffixTags)).length

/-- The deduplication identity, following the comment in
`morphodict/lexicon/models.py`: "This type is the int pk for a saved
wordform, or (text, analysis) for an unsaved one." -/
inductive WordformKey where
  | pk (id : Nat)
  | synthetic (text : String) (analysis : Option RichAnalysis)
deriving DecidableEq

/-- A dictionary wordform, following `morphodict/lexicon/models.py`:
`text`, the analysis (stored as `raw_analysis`), the `is_lemma` flag and
the `lemma` foreign key (`lemmaRef`, holding the identity of the referenced
lemma wordform).  `pk` is the database primary key, `none` for a wordform
synthesized during search and never saved. -/
structure Wordform where
  pk : Option Nat
  text : String
  raw_analysis : Option RichAnalysis
  is_lemma : Bool
  lemmaRef : Option WordformKey
deriving DecidableEq

/-- The analysis of a wordform as a rich analysis; in the source this is a
property reading `raw_analysis` (`models.py` stores the analysis and
`lookup.py` compares it against analyzer output). -/
def Wordform.analysis (w : Wordform) : Option RichAnalysis :=
  w.raw_analysis

/-- The key of a wordform: its primary key when saved, otherwise the
(text, analysis) pair. -/
def Wordform.key (w : Wordform) : WordformKey :=
  match w.pk with
  | some n => .pk n
  | none => .synthetic w.text w.analysis

/-- Modelled from the spec: one item of the "accumulating, open-ended bag
of match features" carried by a Result (`types.Result` is not under
`src/`); one variant per match kind appearing in the strategies of
`lookup.py`. -/
inductive Feature where
  | sourceLanguageMatch (text : String)
  | targetLanguageKeywordMatch (kw : String)
  | pronounAsIsMatch
  | preverbMatch
  | queryWordformEditDistance (d : Nat)
deriving DecidableEq

/-- Modelled from the spec: a Result references a wordform and accumulates
an evidence bag; the relevance score is computed lazily and is undefined
before scoring (`types.Result` is not under `src/`). -/
structure Result where
  wordform : Wordform
  evidence : List Feature
  relevanceScore : Option Int := none
deriving DecidableEq

/-- Modelled from the spec: `add_features_from` merges another Result's
evidence into this Result's evidence bag — "no evidence is ever dropped;
accumulation, not replacement". -/
def Result.add_features_from (self other : Result) : Result :=
  { self with evidence := self.evidence ++ other.evidence }

/-- The result collection of a run: a model of the Python dict
`_results : dict[WordformKey, types.Result]` as an association list with
unique keys kept in insertion order. -/
abbrev ResultMap := List (WordformKey × Result)

/-- Membership test of a key, modelling `key in self._results`. -/
def ResultMap.hasKey (m : ResultMap) (k : WordformKey) : Bool :=
  m.any (fun e => e.1 = k)

/-- In-place update of the entry at an existing key, modelling
`self._results[key].add_features_from(result)`. -/
def ResultMap.mergeAt (m : ResultMap) (k : WordformKey) (r : Result) : ResultMap :=
  m.map (fun e => if e.1 = k then (e.1, e.2.add_features_from r) else e)

/-- Deletion of a key, modelling `del self._results[key]`; a dict holds at
most one entry per key, so deletion is filtering that key out. -/
def ResultMap.eraseKey (m : ResultMap) (k : WordformKey) : ResultMap :=
  m.filter (fun e => ¬ e.1 = k)

/-- The `add_result` insert-or-merge step of `core.py` on the result map,
specialized to an argument that already passed the `isinstance` check:
if the wordform's key is present, merge the evidence into the existing
entry; otherwise insert a new entry. -/
def ResultMap.addResult (m : ResultMap) (r : Result) : ResultMap :=
  let key := r.wordform.key
  if m.hasKey key then m.mergeAt key r
  else m ++ [(key, r)]

/-- Folding a whole sequence of `add_result` calls over a result map. -/
def ResultMap.addAll (m : ResultMap) (rs : List Result) : ResultMap :=
  rs.foldl ResultMap.addResult m

/-- The list of keys of a result map. -/
def ResultMap.keys (m : ResultMap) : List WordformKey :=
  m.map Prod.fst

/-- There is an entry for key `k` in map `m` whose evidence bag contains
feature `f`. -/
def ResultMap.EvidenceIn (m : ResultMap) (k : WordformKey) (f : Feature) : Prop :=
  ∃ e ∈ m, e.1 = k ∧ f ∈ e.2.evidence

/-- Python whitespace as recognized by `str.split()` and `str.strip()`,
restricted to the ASCII whitespace characters. -/
def isWS (c : Char) : Bool :=
  c = ' ' ∨ c = '\t' ∨ c = '\n' ∨ c = '\r' ∨ c = '\x0b' ∨ c = '\x0c'

/-- Stripping leading and trailing whitespace, modelling `str.strip()`. -/
def pyStrip (l : List Char) : List Char :=
  ((l.dropWhile isWS).reverse.dropWhile isWS).reverse

/-- Lower-casing table: ASCII letters plus the circumflex and macron vowels
relevant to the orthography, modelling Python `str.lower()` on the embedded
character set. -/
def lowerPairs : List (Char × Char) :=
  [('A','a'), ('B','b'), ('C','c'), ('D','d'), ('E','e'), ('F','f'),
   ('G','g'), ('H','h'), ('I','i'), ('J','j'), ('K','k'), ('L','l'),
   ('M','m'), ('N','n'), ('O','o'), ('P','p'), ('Q','q'), ('R','r'),
   ('S','s'), ('T','t'), ('U','u'), ('V','v'), ('W','w'), ('X','x'),
   ('Y','y'), ('Z','z'),
   ('Â','â'), ('Ê','ê'), ('Î','î'), ('Ô','ô'),
   ('Ā','ā'), ('Ē','ē'), ('Ī','ī'), ('Ō','ō')]

/-- First-match lookup in a character substitution table. -/
def tblLookup (ps : List (Char × Char)) (c : Char) : Option Char :=
  match ps with
  | [] => none
  | (a, b) :: rest => if c = a then some b else tblLookup rest c

def lowerChar (c : Char) : Char :=
  (tblLookup lowerPairs c).getD c

/-- Modelled from the spec: the orthography canonicalization
`to_sro_circumflex` (not under `src/`) — "a fixed character-substitution
mapping" carrying the macron convention onto the internal circumflex
convention. -/
def sroPairs : List (Char × Char) :=
  [('ā','â'), ('ē','ê'), ('ī','î'), ('ō','ô')]

def sroChar (c : Char) : Char :=
  (tblLookup sroPairs c).getD c

/-- Modelled from the spec: Unicode NFC canonical composition is an
external Unicode algorithm; the embedded character set is closed under
composition, on which NFC is the identity. -/
def nfc (l : List Char) : List Char := l

/-- Splitting into tokens on runs of whitespace, discarding empty tokens,
modelling Python `str.split()` with no arguments. -/
def pySplit (l : List Char) : List (List Char) :=
  match l with
  | [] => []
  | c :: cs =>
    if isWS c then pySplit cs
    else (c :: cs.takeWhile (fun d => ¬ isWS d)) ::
         pySplit (cs.dropWhile (fun d => ¬ isWS d))
termination_by l.length
decreasing_by
  · simp only [List.length_cons]
    omega
  · simp only [List.length_cons]
    have h : ∀ (p : Char → Bool) (l : List Char),
        (l.dropWhile p).length ≤ l.length := by
      intro p l
      induction l with
      | nil => simp
      | cons c cs ih =>
        rw [List.dropWhile_cons]
        by_cases hpc : p c = true
        · rw [if_pos hpc]
          simp only [List.length_cons]
          omega
        · rw [if_neg hpc]
    have h2 := h (fun d => ¬ isWS d) cs
    omega

/-- Joining tokens with single spaces, modelling `" ".join(...)`. -/
def joinSpace : List (List Char) → List Char
  | [] => []
  | [t] => t
  | t :: ts => t ++ ' ' :: joinSpace ts

/-- The truthy vocabulary of `marshmallow.fields.Boolean.truthy` (its
string members; the query is a string, so the non-string members `1` and
`True` can never match). -/
def marshmallowTruthy : List (List Char) :=
  [("t".data), ("T".data), ("true".data), ("True".data), ("TRUE".data),
   ("on".data), ("On".data), ("ON".data), ("y".data), ("Y".data),
   ("yes".data), ("Yes".data), ("YES".data), ("1".data)]

/-- The recognized boolean directive keys, `Query.BOOL_KEYS` in
`query.py`. -/
def boolKeys : List (List Char) :=
  [("verbose".data), ("auto".data)]

/-- The key part of a `key:value` token — everything before the first
colon, modelling `token.split(":", 1)[0]`. -/
def tokenKey (t : List Char) : List Char :=
  t.takeWhile (fun c => ¬ c = ':')

/-- The value part of a `key:value` token — everything after the first
colon, modelling `token.split(":", 1)[1]`. -/
def tokenValue (t : List Char) : List Char :=
  (t.dropWhile (fun c => ¬ c = ':')).tail

/-- Decimal digit recognition for the model of Python `int()`. -/
def isDigitChar (c : Char) : Bool :=
  '0' ≤ c ∧ c ≤ '9'

def digitsToNat (l : List Char) : Nat :=
  l.foldl (fun acc c => acc * 10 + (c.toNat - '0'.toNat)) 0

/-- A model of Python `int(value)`: optional surrounding whitespace, an
optional sign, then one or more decimal digits; anything else raises
`ValueError`, modelled as `none`. -/
def pyInt (v : List Char) : Option Int :=
  let s := pyStrip v
  match s with
  | '-' :: ds =>
    if ds ≠ [] ∧ ds.all isDigitChar then some (-(digitsToNat ds : Int)) else none
  | '+' :: ds =>
    if ds ≠ [] ∧ ds.all isDigitChar then some (digitsToNat ds : Int) else none
  | ds =>
    if ds ≠ [] ∧ ds.all isDigitChar then some (digitsToNat ds : Int) else none

/-- Modelled from the spec: the enumerated comparison-mode directive
(`runner.CvdSearchType` is not under `src/`): a closed enumeration given as
(numeric code, name) pairs; the embedding is parametric in it. -/
abbrev CvdEnum := List (Int × List Char)

/-- The `cvd` value resolution of `query.py` lines 41-47: try
`CvdSearchType(int(value))`; on `ValueError` (either from `int` or from a
non-member code) scan the enumeration for a member whose lower-cased name
equals the value; if nothing matches, the directive value is unchanged. -/
def cvdResolve (enum : CvdEnum) (value : List Char) : Option Int :=
  let byName := (enum.find? (fun t => value = t.2.map lowerChar)).map Prod.fst
  match pyInt value with
  | some n => if enum.any (fun t => t.1 = n) then some n else byName
  | none => byName

/-- The mutable directive/terms state accumulated by the token loop of
`Query.__init__`. -/
structure QueryAcc where
  verbose : Option Bool
  auto : Option Bool
  cvd : Option Int
  query_terms : List (List Char)
deriving DecidableEq

/-- One iteration of the token loop of `Query.__init__` (lines 28-50 of
`query.py`): a `key:value` token with a recognized boolean key is consumed
and sets the attribute to `value in marshmallow.fields.Boolean.truthy`; a
`cvd:value` token is consumed and updates `cvd` only if the value
resolves; any other token is appended to the query terms. -/
def processToken (enum : CvdEnum) (acc : QueryAcc) (t : List Char) : QueryAcc :=
  if ':' ∈ t then
    let key := tokenKey t
    let value := tokenValue t
    if key ∈ boolKeys then
      if key = ("verbose".data) then
        { acc with verbose := some (value ∈ marshmallowTruthy) }
      else
        { acc with auto := some (value ∈ marshmallowTruthy) }
    else if key = ("cvd".data) then
      match cvdResolve enum value with
      | some n => { acc with cvd := some n }
      | none => acc
    else
      { acc with query_terms := acc.query_terms ++ [t] }
  else
    { acc with query_terms := acc.query_terms ++ [t] }

/-- The parsed query, following class `Query` of `query.py`. -/
structure Query where
  raw_query_string : String
  verbose : Option Bool
  auto : Option Bool
  cvd : Option Int
  query_terms : List (List Char)
  query_string : List Char
  is_valid : Bool
deriving DecidableEq

/-- The normalization pipeline of `Query.__init__`: strip surrounding
whitespace, NFC-compose, lower-case, then apply the circumflex
orthography mapping. -/
def normalizeQuery (l : List Char) : List Char :=
  ((nfc (pyStrip l)).map lowerChar).map sroChar

/-- The constructor `Query.__init__` of `query.py`: normalize, split into
tokens, run the directive loop over every token left to right, and join
the remaining terms with single spaces. -/
def Query.parse (enum : CvdEnum) (raw : String) : Query :=
  let toks := pySplit (normalizeQuery raw.data)
  let acc := toks.foldl (processToken enum) ⟨none, none, none, []⟩
  { raw_query_string := raw
    verbose := acc.verbose
    auto := acc.auto
    cvd := acc.cvd
    query_terms := acc.query_terms
    query_string := joinSpace acc.query_terms
    is_valid := ¬ (joinSpace acc.query_terms = []) }

/-- Modelled from the spec: `first_non_none_value` of `util.py` (not under
`src/`): the first argument that is not `None`, with a default. -/
def first_non_none_value (a b : Option Bool) (dflt : Bool) : Bool :=
  match a with
  | some x => x
  | none =>
    match b with
    | some y => y
    | none => dflt

/-- The search run of `core.py`: owns the parsed query and gathers results
into the result collection.  The `log` field models the output of the
module-level `logger` used by `lookup.py`; it is not a field of the Python
class but is the observable trace of its diagnostics. -/
structure SearchRun where
  query : Query
  include_auto_definitions : Bool
  results : ResultMap
  verbose_messages : List String
  log : List String
deriving DecidableEq

/-- The constructor `SearchRun.__init__`: parse the query, resolve the
auto-definition flag, and start with empty collections. -/
def SearchRun.init (enum : CvdEnum) (query : String) (include_auto : Option Bool) : SearchRun :=
  let q := Query.parse enum query
  { query := q
    include_auto_definitions := first_non_none_value q.auto include_auto false
    results := []
    verbose_messages := []
    log := [] }

/-- The `internal_query` property: the normalized query string. -/
def SearchRun.internal_query (run : SearchRun) : List Char :=
  run.query.query_string

/-- A dynamically-typed Python value, as far as `add_result`'s
`isinstance` check can observe it: either an actual `Result` or some other
value. -/
inductive PyValue where
  | result (r : Result)
  | str (s : String)
  | num (n : Int)
  | noneVal
deriving DecidableEq

def PyValue.isResult : PyValue → Bool
  | .result _ => true
  | _ => false

/-- The exceptions raised by the embedded methods: `TypeError` from the
`isinstance` check of `add_result`, `KeyError` from `del` on an absent
key, `AssertionError` from the consistency assert of `fetch_results`. -/
inductive PyError where
  | typeError (msg : String)
  | keyError
  | assertionError (msg : String)
deriving DecidableEq

/-- The method `add_result` of `core.py` lines 32-39: raise `TypeError` if
the argument is not a `Result` (leaving the collection untouched),
otherwise merge-or-insert by wordform key.  The first component is the
raised exception, if any. -/
def SearchRun.add_result (run : SearchRun) (v : PyValue) : Option PyError × SearchRun :=
  match v with
  | .result r => (none, { run with results := run.results.addResult r })
  | _ => (some (.typeError "not Result"), run)

/-- The method `has_result` of `core.py`. -/
def SearchRun.has_result (run : SearchRun) (r : Result) : Bool :=
  run.results.hasKey r.wordform.key

/-- The method `remove_result` of `core.py` lines 44-45: `del` on the
result dict, which raises `KeyError` when the key is absent. -/
def SearchRun.remove_result (run : SearchRun) (r : Result) : Option PyError × SearchRun :=
  if run.results.hasKey r.wordform.key then
    (none, { run with results := run.results.eraseKey r.wordform.key })
  else
    (some .keyError, run)

/-- A sequence of `add_result` calls, each with an actual `Result` value. -/
def SearchRun.addResults (run : SearchRun) (rs : List Result) : SearchRun :=
  rs.foldl (fun run r => (run.add_result (.result r)).2) run

/-- Modelled from the spec: the computed edit distance between two strings
(`get_modified_distance` of `CreeDictionary.utils` is not under `src/`);
embedded as the classic Levenshtein distance. -/
def editDist (a b : List Char) : Nat :=
  match a, b with
  | [], bs => bs.length
  | as, [] => as.length
  | x :: xs, y :: ys =>
    if x = y then editDist xs ys
    else 1 + min (editDist xs ys) (min (editDist xs (y :: ys)) (editDist (x :: xs) ys))
termination_by a.length + b.length
decreasing_by
  all_goals simp only [List.length_cons]
  all_goals omega

/-- Modelled from the spec: the diacritic-stripping table of
`remove_cree_diacritics` (not under `src/`): circumflex and macron vowels
map to their bare ASCII counterparts. -/
def creeDiacriticPairs : List (Char × Char) :=
  [('â','a'), ('ê','e'), ('î','i'), ('ô','o'),
   ('ā','a'), ('ē','e'), ('ī','i'), ('ō','o')]

def removeCreeDiacritics (l : List Char) : List Char :=
  l.map (fun c => (tblLookup creeDiacriticPairs c).getD c)

/-- The external collaborators of the engine, as consumed by `lookup.py`:
the lexicon rows (for the ORM filters), the keyword stemmer and keyword
index, the relaxed analyzer and strict generator of the morphological
oracle, and the cached preverb index `PREVERB_ASCII_LOOKUP`. -/
structure Env where
  lexicon : List Wordform
  stemKeywords : List Char → List (List Char)
  targetKeywordLookup : List Char → List Wordform
  analyzeRelaxed : List Char → List RichAnalysis
  generateStrict : String → List (List Char)
  preverbLookup : List Char → List Wordform

/-- The strategy `fetch_results_from_keywords` of `lookup.py` lines
140-148: for each stemmed keyword of the query, add every wordform indexed
under that keyword as a Result with target-language keyword evidence. -/
def fetch_results_from_keywords (env : Env) (run : SearchRun) : SearchRun :=
  (env.stemKeywords run.internal_query).foldl
    (fun run kw =>
      (env.targetKeywordLookup kw).foldl
        (fun run wf =>
          (run.add_result (.result
            ⟨wf, [.targetLanguageKeywordMatch (String.mk kw)], none⟩)).2)
        run)
    run

/-- The exact-match loop of `fetch_results` (`lookup.py` lines 44-57): for
each database match add a Result carrying the surface text and the edit
distance to the query, assert that the wordform's analysis is in the
(current) candidate set, then remove that analysis from the candidates.
On assertion failure the exception propagates and the loop's partial
state is abandoned. -/
def exactMatchLoop (q : List Char) :
    List Wordform → List RichAnalysis → SearchRun →
    Except PyError (List RichAnalysis × SearchRun)
  | [], analyses, run => .ok (analyses, run)
  | wf :: rest, analyses, run =>
    let run' := (run.add_result (.result
      ⟨wf, [.sourceLanguageMatch wf.text,
            .queryWordformEditDistance (editDist wf.text.data q)], none⟩)).2
    match wf.analysis with
    | some a =>
      if a ∈ analyses then exactMatchLoop q rest (analyses.erase a) run'
      else .error (.assertionError "wordform analysis not in search set")
    | none => .error (.assertionError "wordform analysis not in search set")

/-- The database matches of the exact-match strategy: the wordforms whose
stored analysis is (exactly) one of the relaxed analyses, modelling
`Wordform.objects.filter(raw_analysis__in=[a.tuple for a in fst_analyses])`. -/
def dbMatches (env : Env) (analyses : List RichAnalysis) : List Wordform :=
  env.lexicon.filter (fun wf =>
    match wf.raw_analysis with
    | some a => a ∈ analyses
    | none => false)

/-- Python `min(xs, key=g)` over a nonempty list: left-to-right scan, the
first element with a strictly smaller key replaces the current minimum, so
the first minimal element wins ties. -/
def pyMin {β : Type} (g : β → Nat) (x : β) (rest : List β) : β :=
  rest.foldl (fun acc y => if g y < g acc then y else acc) x

/-- The lemma candidates of the synthetic step, modelling
`Wordform.objects.filter(text=analysis.lemma, is_lemma=True)`. -/
def lemmaCandidates (env : Env) (analysis : RichAnalysis) : List Wordform :=
  env.lexicon.filter (fun wf => wf.text = analysis.lemmaText ∧ wf.is_lemma)

/-- The disambiguation of `lookup.py` lines 94-105: when more than one
lemma wordform shares the lemma text, keep exactly the candidates whose
tag-intersection count with the analysis is maximal; otherwise keep the
candidates as they are. -/
def disambiguate (analysis : RichAnalysis) (cands : List Wordform) : List Wordform :=
  if 1 < cands.length then
    let m := (cands.map
      (fun lwf => analysis.tagIntersectionCount lwf.analysis)).foldr max 0
    cands.filter (fun lwf => analysis.tagIntersectionCount lwf.analysis = m)
  else cands

/-- One iteration of the synthetic-generation loop of `fetch_results`
(`lookup.py` lines 62-122) for a single remaining analysis: generate with
the strict generator; if nothing is generated, log a diagnostic and skip;
otherwise pick the generated form closest to the query (Python `min`:
first minimal element wins), resolve lemma candidates by text, keep only
the maximal tag-intersection candidates when there are several, and add
one synthetic Result per surviving candidate. -/
def syntheticStepOne (env : Env) (q : List Char) (run : SearchRun)
    (analysis : RichAnalysis) : SearchRun :=
  match env.generateStrict analysis.smushed with
  | [] =>
    { run with log :=
        run.log ++ ["Cannot generate normative form for analysis"] }
  | f0 :: rest =>
    let normatized_user_query := pyMin (fun f => editDist f q) f0 rest
    let survivors := disambiguate analysis (lemmaCandidates env analysis)
    survivors.foldl (fun run lwf =>
      (run.add_result (.result
        ⟨⟨none, String.mk normatized_user_query, some analysis, false, some lwf.key⟩,
         [.pronounAsIsMatch,
          .queryWordformEditDistance (editDist q normatized_user_query)], none⟩)).2)
      run

/-- The synthetic-generation loop over all remaining analyses. -/
def syntheticStep (env : Env) (q : List Char) (analyses : List RichAnalysis)
    (run : SearchRun) : SearchRun :=
  analyses.foldl (syntheticStepOne env q) run

/-- The function `fetch_results` of `lookup.py`: keyword strategy, relaxed
analysis, exact-match loop, then synthetic generation.  The source then
executes a bare `return` (line 124); the preverb block after that
`return` (lines 128-137) is unreachable and is therefore not part of this
function's behaviour. -/
def fetch_results (env : Env) (run : SearchRun) : Except PyError SearchRun :=
  let run1 := fetch_results_from_keywords env run
  let fst_analyses := env.analyzeRelaxed run1.internal_query
  match exactMatchLoop run1.internal_query (dbMatches env fst_analyses) fst_analyses run1 with
  | .error e => .error e
  | .ok (remaining, run2) =>
    .ok (syntheticStep env run2.internal_query remaining run2)

/-- The function `fetch_preverbs` of `lookup.py` lines 164-176: strip one
trailing hyphen if present, strip diacritics, and look the result up in
the preverb index. -/
def fetch_preverbs (env : Env) (user_query : List Char) : List Wordform :=
  let uq := if user_query.getLast? = some '-' then user_query.dropLast else user_query
  env.preverbLookup (removeCreeDiacritics uq)

/-- Modelled from the spec: the minimum edit distance across all evidence
entries that carry one (part of the default relevance score;
`types.Result.assign_default_relevance_score` is not under `src/`). -/
def Result.minEditDistance (r : Result) : Option Nat :=
  (r.evidence.filterMap (fun f =>
    match f with
    | .queryWordformEditDistance d => some d
    | _ => none)).min?

/-- Modelled from the spec: the categorical precedence by match kind — an
exact source-language surface match outranks a synthetic match, which
outranks a keyword-only match.  The spec leaves the concrete constants to
the implementer; rank 0 is best. -/
def Result.matchRank (r : Result) : Nat :=
  if r.evidence.any (fun f =>
      match f with
      | .sourceLanguageMatch _ => true
      | _ => false) then 0
  else if r.evidence.any (fun f =>
      match f with
      | .pronounAsIsMatch => true
      | _ => false) then 1
  else 2

/-- Modelled from the spec: the default relevance score, combining the
match-kind category, the minimum edit distance (lower is better; absent
distances score as a large constant) and a lemma-hood boost.  The concrete
weights are implementation-defined by the spec; these are the documented
choices of this embedding. -/
def Result.defaultScore (r : Result) : Int :=
  1000 * (r.matchRank : Int) + ((r.minEditDistance.getD 500 : Nat) : Int) -
    (if r.wordform.is_lemma then 1 else 0)

/-- The lazy scoring pass of `sorted_results`: store the default relevance
score on the Result. -/
def Result.assign_default_relevance_score (r : Result) : Result :=
  { r with relevanceScore := some r.defaultScore }

/-- An injective order code for an analysis, used by the stable secondary
sort key. -/
def RichAnalysis.sortCode (a : RichAnalysis) :
    List String ×ₗ String ×ₗ List String :=
  toLex (a.prefixTags, toLex (a.lemmaText, a.suffixTags))

/-- An injective order code for a wordform identity, used as the stable
secondary sort key: persisted identifiers order before synthetic
(text, analysis) pairs. -/
def WordformKey.sortCode (k : WordformKey) :
    Nat ×ₗ Nat ×ₗ String ×ₗ List String ×ₗ String ×ₗ List String :=
  match k with
  | .pk n => toLex (0, toLex (n, toLex ("", toLex ([], toLex ("", [])))))
  | .synthetic t none => toLex (1, toLex (0, toLex (t, toLex ([], toLex ("", [])))))
  | .synthetic t (some a) =>
    toLex (1, toLex (1, toLex (t, toLex (a.prefixTags, toLex (a.lemmaText, a.suffixTags)))))

/-- Modelled from the spec: the total sort key of a Result — the stored
relevance score, then the stable secondary key "wordform text, then
identity" (the `Result` comparison of `types.py` is not under `src/`). -/
def Result.sortKey (r : Result) :
    Int ×ₗ String ×ₗ Nat ×ₗ Nat ×ₗ String ×ₗ List String ×ₗ String ×ₗ List String :=
  toLex (r.relevanceScore.getD 0, toLex (r.wordform.text, r.wordform.key.sortCode))

/-- The strict before-ordering on scored Results. -/
def resultBefore (a b : Result) : Prop :=
  a.sortKey < b.sortKey

instance : DecidableRel resultBefore := by
  unfold resultBefore
  infer_instance

/-- The method `sorted_results` of `core.py` lines 50-55: copy the current
results, assign each its default relevance score, and sort. -/
def SearchRun.sorted_results (run : SearchRun) : List Result :=
  let results := run.results.map (fun e => e.2.assign_default_relevance_score)
  results.insertionSort (fun a b => ¬ resultBefore b a)

/-- A token that the directive loop consumes: it contains a colon and its
key is a recognized boolean directive or the enumerated `cvd` directive. -/
def isDirectiveTok (t : List Char) : Bool :=
  (':' ∈ t) ∧ (tokenKey t ∈ boolKeys ∨ tokenKey t = ("cvd".data))

/-- No entry of the result map carries preverb-match evidence. -/
def ResultMap.NoPreverb (m : ResultMap) : Prop :=
  ∀ e ∈ m, ∀ f ∈ e.2.evidence, ¬ f = Feature.preverbMatch

lemma ResultMap.keys_mergeAt (m : ResultMap) (k : WordformKey) (r : Result) :
    (m.mergeAt k r).keys = m.keys := by
  unfold ResultMap.keys ResultMap.mergeAt
  rw [List.map_map]
  apply List.map_congr_left
  intro e _
  by_cases h : e.1 = k <;> simp [h]

lemma ResultMap.keys_addResult (m : ResultMap) (r : Result) :
    (m.addResult r).keys =
      if m.hasKey r.wordform.key then m.keys else m.keys ++ [r.wordform.key] := by
  unfold ResultMap.addResult
  by_cases h : m.hasKey r.wordform.key
  · rw [if_pos h, if_pos h]
    exact m.keys_mergeAt r.wordform.key r
  · rw [if_neg h, if_neg h]
    simp [ResultMap.keys]

lemma ResultMap.hasKey_iff (m : ResultMap) (k : WordformKey) :
    m.hasKey k = true ↔ k ∈ m.keys := by
  unfold ResultMap.hasKey ResultMap.keys
  simp [List.any_eq_true, List.mem_map]

lemma ResultMap.nodup_keys_addResult (m : ResultMap) (r : Result)
    (h : m.keys.Nodup) : (m.addResult r).keys.Nodup := by
  rw [ResultMap.keys_addResult]
  by_cases hk : m.hasKey r.wordform.key
  · rw [if_pos hk]
    exact h
  · rw [if_neg hk]
    rw [List.nodup_append]
    refine ⟨h, List.nodup_singleton _, ?_⟩
    intro a ha hb
    simp only [List.mem_singleton] at hb
    subst hb
    exact hk ((m.hasKey_iff _).2 ha)

lemma ResultMap.nodup_keys_addAll (m : ResultMap) (rs : List Result)
    (h : m.keys.Nodup) : (m.addAll rs).keys.Nodup := by
  induction rs generalizing m with
  | nil => exact h
  | cons r rs ih =>
    exact ih (m.addResult r) (m.nodup_keys_addResult r h)

lemma ResultMap.keys_addAll_subset (m : ResultMap) (rs : List Result) :
    (m.addAll rs).keys ⊆ m.keys ++ rs.map (fun r => r.wordform.key) := by
  induction rs generalizing m with
  | nil => simp [ResultMap.addAll]
  | cons r rs ih =>
    intro k hk
    have step := ih (m.addResult r) hk
    rw [List.mem_append] at step
    rcases step with hstep | hstep
    · rw [ResultMap.keys_addResult] at hstep
      by_cases hc : m.hasKey r.wordform.key
      · rw [if_pos hc] at hstep
        simp only [List.map_cons, List.mem_append, List.mem_cons]
        left
        exact hstep
      · rw [if_neg hc] at hstep
        rw [List.mem_append] at hstep
        rcases hstep with h1 | h1
        · simp only [List.mem_append, List.mem_cons]
          left
          exact h1
        · simp only [List.mem_singleton] at h1
          simp [h1]
    · simp only [List.map_cons, List.mem_append, List.mem_cons]
      right
      right
      exact hstep

lemma ResultMap.evidenceIn_addResult_of_evidenceIn (m : ResultMap) (r : Result)
    (k : WordformKey) (f : Feature) (h : m.EvidenceIn k f) :
    (m.addResult r).EvidenceIn k f := by
  obtain ⟨e, he, hk, hf⟩ := h
  unfold ResultMap.addResult
  by_cases hc : m.hasKey r.wordform.key
  · rw [if_pos hc]
    by_cases hek : e.1 = r.wordform.key
    · refine ⟨(e.1, e.2.add_features_from r), ?_, hk, ?_⟩
      · unfold ResultMap.mergeAt
        rw [List.mem_map]
        exact ⟨e, he, by rw [if_pos hek]⟩
      · unfold Result.add_features_from
        simp only [List.mem_append]
        left
        exact hf
    · refine ⟨e, ?_, hk, hf⟩
      unfold ResultMap.mergeAt
      rw [List.mem_map]
      exact ⟨e, he, by rw [if_neg hek]⟩
  · rw [if_neg hc]
    exact ⟨e, List.mem_append_left _ he, hk, hf⟩

lemma ResultMap.evidenceIn_addResult_self (m : ResultMap) (r : Result)
    (f : Feature) (hf : f ∈ r.evidence) :
    (m.addResult r).EvidenceIn r.wordform.key f := by
  unfold ResultMap.addResult
  by_cases hc : m.hasKey r.wordform.key
  · rw [if_pos hc]
    unfold ResultMap.hasKey at hc
    rw [List.any_eq_true] at hc
    obtain ⟨e, he, hek⟩ := hc
    rw [decide_eq_true_eq] at hek
    refine ⟨(e.1, e.2.add_features_from r), ?_, hek, ?_⟩
    · unfold ResultMap.mergeAt
      rw [List.mem_map]
      exact ⟨e, he, by rw [if_pos hek]⟩
    · unfold Result.add_features_from
      simp only [List.mem_append]
      right
      exact hf
  · rw [if_neg hc]
    exact ⟨(r.wordform.key, r), List.mem_append_right _ (List.mem_singleton_self _), rfl, hf⟩

lemma ResultMap.evidenceIn_addAll_of_evidenceIn (m : ResultMap) (rs : List Result)
    (k : WordformKey) (f : Feature) (h : m.EvidenceIn k f) :
    (m.addAll rs).EvidenceIn k f := by
  induction rs generalizing m with
  | nil => exact h
  | cons r rs ih =>
    exact ih (m.addResult r) (m.evidenceIn_addResult_of_evidenceIn r k f h)

lemma ResultMap.evidenceIn_addAll (m : ResultMap) (rs : List Result)
    (r : Result) (hr : r ∈ rs) (f : Feature) (hf : f ∈ r.evidence) :
    (m.addAll rs).EvidenceIn r.wordform.key f := by
  induction rs generalizing m with
  | nil => cases hr
  | cons x xs ih =>
    rcases List.mem_cons.1 hr with heq | hmem
    · subst heq
      exact (m.addResult r).evidenceIn_addAll_of_evidenceIn xs _ f
        (m.evidenceIn_addResult_self r f hf)
    · exact ih (m.addResult x) hmem

lemma dropWhile_length_le (p : Char → Bool) (l : List Char) :
    (l.dropWhile p).length ≤ l.length := by
  induction l with
  | nil => simp
  | cons c cs ih =>
    rw [List.dropWhile_cons]
    by_cases h : p c = true
    · rw [if_pos h]
      simp only [List.length_cons]
      omega
    · rw [if_neg h]

lemma SearchRun.results_addResults (run : SearchRun) (rs : List Result) :
    (run.addResults rs).results = run.results.addAll rs := by
  induction rs generalizing run with
  | nil => rfl
  | cons r rs ih =>
    show ((run.add_result (.result r)).2.addResults rs).results = _
    rw [ih]
    rfl

lemma SearchRun.init_results (enum : CvdEnum) (q : String) (ia : Option Bool) :
    (SearchRun.init enum q ia).results = [] := rfl

/-- C1: over any sequence of `add_result` calls on one search run, the run
holds at most one Result per wordform identity — the keys of the result
collection stay pairwise distinct and the number of Results is bounded by
the number of distinct identities among the candidates — and every
evidence item of every candidate remains retrievable from the Result
stored at that candidate's identity (merging accumulates, never drops). -/
theorem C1_add_result_dedups_and_never_drops_evidence
    (enum : CvdEnum) (q : String) (ia : Option Bool) (cands : List Result) :
    ((SearchRun.init enum q ia).addResults cands).results.keys.Nodup ∧
    ((SearchRun.init enum q ia).addResults cands).results.length ≤
      (cands.map (fun r => r.wordform.key)).toFinset.card ∧
    (∀ r ∈ cands, ∀ f ∈ r.evidence,
      ((SearchRun.init enum q ia).addResults cands).results.EvidenceIn
        r.wordform.key f) := by
  rw [SearchRun.results_addResults, SearchRun.init_results]
  have hnodup : (ResultMap.addAll [] cands).keys.Nodup :=
    ResultMap.nodup_keys_addAll [] cands (by simp [ResultMap.keys])
  refine ⟨hnodup, ?_, ?_⟩
  · have hsub : (ResultMap.addAll [] cands).keys ⊆
        cands.map (fun r => r.wordform.key) := by
      have h := ResultMap.keys_addAll_subset [] cands
      simpa [ResultMap.keys] using h
    have hlen : (ResultMap.addAll [] cands).length =
        (ResultMap.addAll [] cands).keys.length := by
      simp [ResultMap.keys]
    rw [hlen, ← List.toFinset_card_of_nodup hnodup]
    apply Finset.card_le_card
    intro k hk
    rw [List.mem_toFinset] at hk ⊢
    exact hsub hk
  · intro r hr f hf
    exact ResultMap.evidenceIn_addAll [] cands r hr f hf

/-- C9: `add_result` called with a value that is not a Result raises a
`TypeError` — fatal, not swallowed — and leaves the run (hence its result
map) unchanged; called with any actual Result value it never raises. -/
theorem C9_add_result_type_check (run : SearchRun) :
    (∀ v : PyValue, v.isResult = false →
      run.add_result v = (some (PyError.typeError "not Result"), run)) ∧
    (∀ r : Result, (run.add_result (PyValue.result r)).1 = none) := by
  constructor
  · intro v hv
    cases v with
    | result r => simp [PyValue.isResult] at hv
    | str s => rfl
    | num n => rfl
    | noneVal => rfl
  · intro r
    rfl

/-- Witness for C9 at a concrete run: a string argument raises `TypeError`
and leaves the run unchanged; a Result argument raises nothing. -/
theorem C9_add_result_type_check_witness :
    (SearchRun.init [] "wâpamêw" none).add_result (PyValue.str "wâpamêw") =
      (some (PyError.typeError "not Result"), SearchRun.init [] "wâpamêw" none) ∧
    ((SearchRun.init [] "wâpamêw" none).add_result
      (PyValue.result ⟨⟨some 1, "wâpamêw", none, true, none⟩, [], none⟩)).1 = none :=
  ⟨(C9_add_result_type_check (SearchRun.init [] "wâpamêw" none)).1
      (PyValue.str "wâpamêw") rfl,
   (C9_add_result_type_check (SearchRun.init [] "wâpamêw" none)).2
      ⟨⟨some 1, "wâpamêw", none, true, none⟩, [], none⟩⟩

/-- C10: `remove_result` on a run that holds no Result for the argument's
wordform identity raises `KeyError` and changes nothing; when the identity
is present, no error is raised, exactly that entry is removed, and every
other entry is untouched. -/
theorem C10_remove_result_keyerror_or_exact_removal (run : SearchRun) (r : Result) :
    (run.results.hasKey r.wordform.key = false →
      run.remove_result r = (some PyError.keyError, run)) ∧
    (run.results.hasKey r.wordform.key = true →
      (run.remove_result r).1 = none ∧
      (run.remove_result r).2.results.hasKey r.wordform.key = false ∧
      (∀ e ∈ run.results, ¬ e.1 = r.wordform.key →
        e ∈ (run.remove_result r).2.results) ∧
      (∀ e ∈ (run.remove_result r).2.results,
        e ∈ run.results ∧ ¬ e.1 = r.wordform.key)) := by
  constructor
  · intro h
    unfold SearchRun.remove_result
    rw [if_neg (by simp [h])]
  · intro h
    unfold SearchRun.remove_result
    rw [if_pos h]
    refine ⟨rfl, ?_, ?_, ?_⟩
    · simp [ResultMap.hasKey, ResultMap.eraseKey, List.any_eq_true, List.mem_filter]
    · intro e he hk
      simp only [ResultMap.eraseKey, List.mem_filter]
      exact ⟨he, by simpa using hk⟩
    · intro e he
      simp only [ResultMap.eraseKey, List.mem_filter] at he
      exact ⟨he.1, by simpa using he.2⟩

/-- Witness for C1 at a concrete input: two candidates discovered for the
same wordform identity by different strategies end up merged without
losing the first candidate's evidence. -/
theorem C1_add_result_dedups_witness :
    ((SearchRun.init [] "acâhkos" none).addResults
      [⟨⟨some 7, "acâhkos", none, true, none⟩,
        [Feature.targetLanguageKeywordMatch "star"], none⟩,
       ⟨⟨some 7, "acâhkos", none, true, none⟩,
        [Feature.sourceLanguageMatch "acâhkos"], none⟩]).results.keys.Nodup ∧
    ResultMap.EvidenceIn
      ((SearchRun.init [] "acâhkos" none).addResults
        [⟨⟨some 7, "acâhkos", none, true, none⟩,
          [Feature.targetLanguageKeywordMatch "star"], none⟩,
         ⟨⟨some 7, "acâhkos", none, true, none⟩,
          [Feature.sourceLanguageMatch "acâhkos"], none⟩]).results
      (WordformKey.pk 7) (Feature.targetLanguageKeywordMatch "star") :=
  ⟨(C1_add_result_dedups_and_never_drops_evidence [] "acâhkos" none
      [⟨⟨some 7, "acâhkos", none, true, none⟩,
        [Feature.targetLanguageKeywordMatch "star"], none⟩,
       ⟨⟨some 7, "acâhkos", none, true, none⟩,
        [Feature.sourceLanguageMatch "acâhkos"], none⟩]).1,
   (C1_add_result_dedups_and_never_drops_evidence [] "acâhkos" none
      [⟨⟨some 7, "acâhkos", none, true, none⟩,
        [Feature.targetLanguageKeywordMatch "star"], none⟩,
       ⟨⟨some 7, "acâhkos", none, true, none⟩,
        [Feature.sourceLanguageMatch "acâhkos"], none⟩]).2.2
      ⟨⟨some 7, "acâhkos", none, true, none⟩,
        [Feature.targetLanguageKeywordMatch "star"], none⟩
      (List.mem_cons_self _ _)
      (Feature.targetLanguageKeywordMatch "star")
      (List.mem_singleton_self _)⟩

/-- Witness for C10 at concrete inputs: removal from an empty run raises
`KeyError` and leaves the run unchanged; removal after insertion raises
nothing. -/
theorem C10_remove_result_witness :
    (SearchRun.init [] "nipâw" none).remove_result
        ⟨⟨some 3, "nipâw", none, true, none⟩, [], none⟩ =
      (some PyError.keyError, SearchRun.init [] "nipâw" none) ∧
    (((SearchRun.init [] "nipâw" none).addResults
        [⟨⟨some 3, "nipâw", none, true, none⟩, [], none⟩]).remove_result
        ⟨⟨some 3, "nipâw", none, true, none⟩, [], none⟩).1 = none :=
  ⟨(C10_remove_result_keyerror_or_exact_removal (SearchRun.init [] "nipâw" none)
      ⟨⟨some 3, "nipâw", none, true, none⟩, [], none⟩).1 rfl,
   ((C10_remove_result_keyerror_or_exact_removal
      ((SearchRun.init [] "nipâw" none).addResults
        [⟨⟨some 3, "nipâw", none, true, none⟩, [], none⟩])
      ⟨⟨some 3, "nipâw", none, true, none⟩, [], none⟩).2 (by decide)).1⟩

lemma tblLookup_mem {ps : List (Char × Char)} {c d : Char}
    (h : tblLookup ps c = some d) : (c, d) ∈ ps := by
  induction ps with
  | nil => simp [tblLookup] at h
  | cons p rest ih =>
    obtain ⟨a, b⟩ := p
    rw [tblLookup] at h
    by_cases hc : c = a
    · rw [if_pos hc] at h
      have hb : b = d := by injection h
      subst hb
      subst hc
      exact List.mem_cons_self _ _
    · rw [if_neg hc] at h
      exact List.mem_cons_of_mem _ (ih h)

lemma lowerPairs_out_closed :
    ∀ p ∈ lowerPairs, tblLookup lowerPairs p.2 = none := by decide

lemma sroPairs_out_closed :
    ∀ p ∈ sroPairs,
      tblLookup lowerPairs p.2 = none ∧ tblLookup sroPairs p.2 = none := by decide

lemma lowerChar_fix_of_none {c : Char} (h : tblLookup lowerPairs c = none) :
    lowerChar c = c := by
  simp [lowerChar, h]

lemma sroChar_fix_of_none {c : Char} (h : tblLookup sroPairs c = none) :
    sroChar c = c := by
  simp [sroChar, h]

lemma lowerChar_idem (c : Char) : lowerChar (lowerChar c) = lowerChar c := by
  cases h : tblLookup lowerPairs c with
  | none =>
    simp [lowerChar_fix_of_none h]
  | some d =>
    have hd : lowerChar c = d := by simp [lowerChar, h]
    rw [hd]
    exact lowerChar_fix_of_none (lowerPairs_out_closed _ (tblLookup_mem h))

/-- The image of the lower-then-orthography normalization is pointwise
fixed by both passes: normalization is idempotent character by
character. -/
lemma norm_fixed (d : Char) :
    lowerChar (sroChar (lowerChar d)) = sroChar (lowerChar d) ∧
    sroChar (sroChar (lowerChar d)) = sroChar (lowerChar d) := by
  cases hy : tblLookup sroPairs (lowerChar d) with
  | some z =>
    have hz : sroChar (lowerChar d) = z := by simp [sroChar, hy]
    have hcl := sroPairs_out_closed _ (tblLookup_mem hy)
    rw [hz]
    exact ⟨lowerChar_fix_of_none hcl.1, sroChar_fix_of_none hcl.2⟩
  | none =>
    rw [sroChar_fix_of_none hy]
    exact ⟨lowerChar_idem d, sroChar_fix_of_none hy⟩

lemma space_fixed : lowerChar ' ' = ' ' ∧ sroChar ' ' = ' ' := by decide

lemma takeWhile_append_all {p : Char → Bool} {xs ys : List Char}
    (h : ∀ c ∈ xs, p c = true) :
    (xs ++ ys).takeWhile p = xs ++ ys.takeWhile p := by
  induction xs with
  | nil => simp
  | cons c cs ih =>
    rw [List.cons_append, List.takeWhile_cons,
      if_pos (h c (List.mem_cons_self _ _)),
      ih (fun d hd => h d (List.mem_cons_of_mem _ hd)), List.cons_append]

lemma dropWhile_append_all {p : Char → Bool} {xs ys : List Char}
    (h : ∀ c ∈ xs, p c = true) :
    (xs ++ ys).dropWhile p = ys.dropWhile p := by
  induction xs with
  | nil => simp
  | cons c cs ih =>
    rw [List.cons_append, List.dropWhile_cons,
      if_pos (h c (List.mem_cons_self _ _))]
    exact ih (fun d hd => h d (List.mem_cons_of_mem _ hd))

lemma pySplit_tokens_good (l : List Char) :
    ∀ t ∈ pySplit l, t ≠ [] ∧ (∀ c ∈ t, isWS c = false) ∧ (∀ c ∈ t, c ∈ l) := by
  induction l using pySplit.induct with
  | case1 =>
    intro t ht
    simp [pySplit] at ht
  | case2 c cs hws ih =>
    intro t ht
    rw [pySplit, if_pos hws] at ht
    obtain ⟨h1, h2, h3⟩ := ih t ht
    exact ⟨h1, h2, fun d hd => List.mem_cons_of_mem _ (h3 d hd)⟩
  | case3 c cs hws ih =>
    intro t ht
    rw [pySplit, if_neg hws] at ht
    rcases List.mem_cons.1 ht with heq | hmem
    · subst heq
      refine ⟨by simp, ?_, ?_⟩
      · intro d hd
        rcases List.mem_cons.1 hd with hdc | hdt
        · subst hdc
          exact Bool.not_eq_true _ ▸ (by simpa using hws)
        · have := List.mem_takeWhile_imp hdt
          simpa using this
      · intro d hd
        rcases List.mem_cons.1 hd with hdc | hdt
        · subst hdc
          exact List.mem_cons_self _ _
        · exact List.mem_cons_of_mem _
            ((List.takeWhile_sublist _).mem hdt)
    · obtain ⟨h1, h2, h3⟩ := ih t hmem
      exact ⟨h1, h2, fun d hd => List.mem_cons_of_mem _
        ((List.dropWhile_sublist _).mem (h3 d hd))⟩

lemma pySplit_ws_lead {w l : List Char} (h : ∀ c ∈ w, isWS c = true) :
    pySplit (w ++ l) = pySplit l := by
  induction w with
  | nil => rfl
  | cons c cs ih =>
    rw [List.cons_append, pySplit, if_pos (h c (List.mem_cons_self _ _))]
    exact ih (fun d hd => h d (List.mem_cons_of_mem _ hd))

lemma pySplit_token_lead {t l : List Char} (hne : t ≠ [])
    (h : ∀ c ∈ t, isWS c = false) :
    pySplit (t ++ l) =
      (t ++ l.takeWhile (fun d => ¬ isWS d)) ::
        pySplit (l.dropWhile (fun d => ¬ isWS d)) := by
  cases t with
  | nil => cases hne rfl
  | cons c cs =>
    rw [List.cons_append, pySplit,
      if_neg (by simp [h c (List.mem_cons_self _ _)])]
    have hcs : ∀ d ∈ cs, decide (¬ isWS d = true) = true := by
      intro d hd
      simp [h d (List.mem_cons_of_mem _ hd)]
    rw [takeWhile_append_all hcs, dropWhile_append_all hcs, List.cons_append]

lemma takeWhile_nonWS_of_ws {w : List Char} (h : ∀ c ∈ w, isWS c = true) :
    w.takeWhile (fun d => ¬ isWS d) = [] := by
  cases w with
  | nil => rfl
  | cons c cs =>
    rw [List.takeWhile_cons, if_neg (by simp [h c (List.mem_cons_self _ _)])]

lemma dropWhile_nonWS_of_ws {w : List Char} (h : ∀ c ∈ w, isWS c = true) :
    w.dropWhile (fun d => ¬ isWS d) = w := by
  cases w with
  | nil => rfl
  | cons c cs =>
    rw [List.dropWhile_cons, if_neg (by simp [h c (List.mem_cons_self _ _)])]

/-- Tokens that are nonempty and whitespace-free round-trip through
joining with single spaces and re-splitting. -/
lemma pySplit_nil : pySplit [] = [] := by
  rw [pySplit]

lemma pySplit_joinSpace {ts : List (List Char)}
    (h : ∀ t ∈ ts, t ≠ [] ∧ ∀ c ∈ t, isWS c = false) :
    pySplit (joinSpace ts) = ts := by
  induction ts with
  | nil => exact pySplit_nil
  | cons t ts ih =>
    obtain ⟨hne, hnws⟩ := h t (List.mem_cons_self _ _)
    cases ts with
    | nil =>
      show pySplit t = [t]
      have := pySplit_token_lead (l := []) hne hnws
      simpa [pySplit_nil] using this
    | cons t' ts' =>
      show pySplit (t ++ ' ' :: joinSpace (t' :: ts')) = t :: t' :: ts'
      rw [pySplit_token_lead hne hnws]
      have hsp : isWS ' ' = true := by decide
      rw [List.takeWhile_cons, if_neg (by simp [hsp]), List.dropWhile_cons,
        if_neg (by simp [hsp]), List.append_nil]
      have hrest := ih (fun u hu => h u (List.mem_cons_of_mem _ hu))
      rw [show pySplit (' ' :: joinSpace (t' :: ts')) =
            pySplit (joinSpace (t' :: ts')) from by
          rw [pySplit, if_pos hsp], hrest]

lemma dropWhile_eq_self_of_nonws {l : List Char}
    (h : ∀ c ∈ l, isWS c = false) : l.dropWhile isWS = l := by
  cases l with
  | nil => rfl
  | cons c cs =>
    rw [List.dropWhile_cons, if_neg (by simp [h c (List.mem_cons_self _ _)])]

lemma joinSpace_ne_nil {ts : List (List Char)} (hts : ts ≠ [])
    (h : ∀ t ∈ ts, t ≠ []) : joinSpace ts ≠ [] := by
  cases ts with
  | nil => cases hts rfl
  | cons t ts =>
    cases ts with
    | nil =>
      exact h t (List.mem_cons_self _ _)
    | cons t' ts' =>
      show t ++ ' ' :: joinSpace (t' :: ts') ≠ []
      simp

lemma head_not_ws_of_dropWhile_eq {d : Char} {tl : List Char}
    (h : (d :: tl).dropWhile isWS = d :: tl) : isWS d = false := by
  by_cases hd : isWS d = true
  · rw [List.dropWhile_cons, if_pos hd] at h
    have hlen := dropWhile_length_le isWS tl
    have : (tl.dropWhile isWS).length = tl.length + 1 := by rw [h]; simp
    omega
  · simpa using hd

lemma reverse_dropWhile_joinSpace {ts : List (List Char)} (hts : ts ≠ [])
    (h : ∀ t ∈ ts, t ≠ [] ∧ ∀ c ∈ t, isWS c = false) :
    (joinSpace ts).reverse.dropWhile isWS = (joinSpace ts).reverse := by
  induction ts with
  | nil => cases hts rfl
  | cons t ts ih =>
    obtain ⟨hne, hnws⟩ := h t (List.mem_cons_self _ _)
    cases ts with
    | nil =>
      show t.reverse.dropWhile isWS = t.reverse
      apply dropWhile_eq_self_of_nonws
      intro c hc
      exact hnws c (List.mem_reverse.1 hc)
    | cons t' ts' =>
      have hrest := ih (by simp) (fun u hu => h u (List.mem_cons_of_mem _ hu))
      have hJne : joinSpace (t' :: ts') ≠ [] :=
        joinSpace_ne_nil (by simp) (fun u hu => (h u (List.mem_cons_of_mem _ hu)).1)
      show (t ++ ' ' :: joinSpace (t' :: ts')).reverse.dropWhile isWS =
        (t ++ ' ' :: joinSpace (t' :: ts')).reverse
      rw [List.reverse_append, List.reverse_cons]
      cases hrev : (joinSpace (t' :: ts')).reverse with
      | nil =>
        exact absurd (by simpa using congrArg List.reverse hrev) hJne
      | cons d tl =>
        rw [hrev] at hrest
        have hd := head_not_ws_of_dropWhile_eq hrest
        rw [List.cons_append, List.cons_append, List.dropWhile_cons,
          if_neg (by simp [hd])]

/-- Joining good tokens with single spaces yields a string with no leading
or trailing whitespace, so stripping is the identity on it. -/
lemma pyStrip_joinSpace {ts : List (List Char)}
    (h : ∀ t ∈ ts, t ≠ [] ∧ ∀ c ∈ t, isWS c = false) :
    pyStrip (joinSpace ts) = joinSpace ts := by
  cases ts with
  | nil => rfl
  | cons t ts =>
    obtain ⟨hne, hnws⟩ := h t (List.mem_cons_self _ _)
    unfold pyStrip
    have hdrop : (joinSpace (t :: ts)).dropWhile isWS = joinSpace (t :: ts) := by
      cases t with
      | nil => cases hne rfl
      | cons c cs =>
        have hc := hnws c (List.mem_cons_self _ _)
        cases ts with
        | nil =>
          show (c :: cs).dropWhile isWS = c :: cs
          rw [List.dropWhile_cons, if_neg (by simp [hc])]
        | cons t' ts' =>
          show ((c :: cs) ++ ' ' :: joinSpace (t' :: ts')).dropWhile isWS = _
          rw [List.cons_append, List.dropWhile_cons, if_neg (by simp [hc])]
          rfl
    rw [hdrop, reverse_dropWhile_joinSpace (by simp) h, List.reverse_reverse]

lemma joinSpace_mem {c : Char} :
    ∀ {ts : List (List Char)}, c ∈ joinSpace ts → c = ' ' ∨ ∃ t ∈ ts, c ∈ t := by
  intro ts
  induction ts with
  | nil => intro h; simp [joinSpace] at h
  | cons t ts ih =>
    intro h
    cases ts with
    | nil =>
      right
      exact ⟨t, List.mem_cons_self _ _, h⟩
    | cons t' ts' =>
      rcases List.mem_append.1 h with ht | hrest
      · right
        exact ⟨t, List.mem_cons_self _ _, ht⟩
      · rcases List.mem_cons.1 hrest with hsp | hj
        · left
          exact hsp
        · rcases ih hj with hsp | ⟨u, hu, hcu⟩
          · left
            exact hsp
          · right
            exact ⟨u, List.mem_cons_of_mem _ hu, hcu⟩

lemma processToken_query_terms (enum : CvdEnum) (acc : QueryAcc) (t : List Char) :
    (processToken enum acc t).query_terms =
      if isDirectiveTok t then acc.query_terms else acc.query_terms ++ [t] := by
  by_cases hc : ':' ∈ t
  · by_cases hb : tokenKey t ∈ boolKeys
    · have hd : isDirectiveTok t = true := by simp [isDirectiveTok, hc, hb]
      rw [if_pos hd]
      simp only [processToken]
      rw [if_pos hc, if_pos hb]
      by_cases hv : tokenKey t = ("verbose".data)
      · rw [if_pos hv]
      · rw [if_neg hv]
    · by_cases hcvd : tokenKey t = ("cvd".data)
      · have hd : isDirectiveTok t = true := by simp [isDirectiveTok, hc, hcvd]
        rw [if_pos hd]
        simp only [processToken]
        rw [if_pos hc, if_neg hb, if_pos hcvd]
        cases hres : cvdResolve enum (tokenValue t) <;> simp [hres]
      · have hd : isDirectiveTok t = false := by
          simp [isDirectiveTok, hc, hb, hcvd]
        rw [if_neg (by simp [hd])]
        simp only [processToken]
        rw [if_pos hc, if_neg hb, if_neg hcvd]
  · have hd : isDirectiveTok t = false := by simp [isDirectiveTok, hc]
    rw [if_neg (by simp [hd])]
    simp only [processToken]
    rw [if_neg hc]

lemma foldl_processToken_query_terms (enum : CvdEnum)
    (toks : List (List Char)) (acc : QueryAcc) :
    (toks.foldl (processToken enum) acc).query_terms =
      acc.query_terms ++ toks.filter (fun t => ¬ isDirectiveTok t) := by
  induction toks generalizing acc with
  | nil => simp
  | cons t toks ih =>
    rw [List.foldl_cons, ih, processToken_query_terms]
    by_cases hd : isDirectiveTok t
    · rw [if_pos hd, List.filter_cons, if_neg (by simp [hd])]
    · rw [if_neg hd, List.filter_cons, if_pos (by simp [hd])]
      simp

lemma parse_query_terms (enum : CvdEnum) (raw : String) :
    (Query.parse enum raw).query_terms =
      (pySplit (normalizeQuery raw.data)).filter
        (fun t => ¬ isDirectiveTok t) := by
  show (List.foldl (processToken enum) ⟨none, none, none, []⟩
    (pySplit (normalizeQuery raw.data))).query_terms = _
  rw [foldl_processToken_query_terms]
  rfl

lemma parse_query_string (enum : CvdEnum) (raw : String) :
    (Query.parse enum raw).query_string =
      joinSpace (Query.parse enum raw).query_terms := rfl

/-- C7: for every raw query string, the effective query string of the
parsed query contains no recognized-directive tokens, and re-parsing that
effective query string yields an identical effective query string —
directive extraction is idempotent, with tokens scanned exactly once,
left to right. -/
theorem C7_directive_extraction_idempotent (enum : CvdEnum) (raw : String) :
    (∀ t ∈ (Query.parse enum raw).query_terms, isDirectiveTok t = false) ∧
    (Query.parse enum
        (String.mk (Query.parse enum raw).query_string)).query_string =
      (Query.parse enum raw).query_string := by
  have hterms := parse_query_terms enum raw
  have part1 : ∀ t ∈ (Query.parse enum raw).query_terms,
      isDirectiveTok t = false := by
    intro t ht
    rw [hterms] at ht
    have hp := (List.mem_filter.1 ht).2
    simpa using hp
  refine ⟨part1, ?_⟩
  have hgood : ∀ t ∈ (Query.parse enum raw).query_terms,
      t ≠ [] ∧ ∀ c ∈ t, isWS c = false := by
    intro t ht
    rw [hterms] at ht
    have hmem := (List.mem_filter.1 ht).1
    obtain ⟨h1, h2, _⟩ := pySplit_tokens_good (normalizeQuery raw.data) t hmem
    exact ⟨h1, h2⟩
  have hfix : ∀ c ∈ joinSpace (Query.parse enum raw).query_terms,
      lowerChar c = c ∧ sroChar c = c := by
    intro c hc
    rcases joinSpace_mem hc with hsp | ⟨t, ht, hct⟩
    · rw [hsp]
      exact space_fixed
    · rw [hterms] at ht
      have hmem := (List.mem_filter.1 ht).1
      have hcN := (pySplit_tokens_good (normalizeQuery raw.data) t hmem).2.2 c hct
      unfold normalizeQuery nfc at hcN
      obtain ⟨b, hb, rfl⟩ := List.mem_map.1 hcN
      obtain ⟨d, hd, rfl⟩ := List.mem_map.1 hb
      exact ⟨(norm_fixed d).1, (norm_fixed d).2⟩
  rw [parse_query_string enum raw]
  have hstrip : pyStrip (joinSpace (Query.parse enum raw).query_terms) =
      joinSpace (Query.parse enum raw).query_terms := pyStrip_joinSpace hgood
  have hnorm : normalizeQuery (joinSpace (Query.parse enum raw).query_terms) =
      joinSpace (Query.parse enum raw).query_terms := by
    unfold normalizeQuery nfc
    rw [hstrip]
    have h1 : (joinSpace (Query.parse enum raw).query_terms).map lowerChar =
        joinSpace (Query.parse enum raw).query_terms :=
      (List.map_congr_left (fun a ha => (hfix a ha).1)).trans
        (List.map_id _)
    rw [h1]
    exact (List.map_congr_left (fun a ha => (hfix a ha).2)).trans
      (List.map_id _)
  rw [parse_query_string, parse_query_terms]
  show joinSpace (List.filter _
    (pySplit (normalizeQuery
      (String.mk (joinSpace (Query.parse enum raw).query_terms)).data))) = _
  rw [show (String.mk (joinSpace (Query.parse enum raw).query_terms)).data =
      joinSpace (Query.parse enum raw).query_terms from rfl]
  rw [hnorm, pySplit_joinSpace hgood]
  rw [List.filter_eq_self.2 (by
    intro t ht
    simp [part1 t ht])]

/-- Witness for C7 at the spec's own scenario query: re-parsing the
effective query string of `"verbose:true auto:no catches"` reproduces it
exactly. -/
theorem C7_directive_extraction_idempotent_witness :
    (Query.parse []
        (String.mk (Query.parse [] "verbose:true auto:no catches").query_string)).query_string =
      (Query.parse [] "verbose:true auto:no catches").query_string :=
  (C7_directive_extraction_idempotent [] "verbose:true auto:no catches").2

unseal pySplit in
/-- C5 counterexample: for the query `"verbose:banana"` — a recognized
boolean directive key with a value outside the truthy vocabulary — the
parser sets the directive (to `False`) and consumes the token: the
effective query string is empty and the token is not kept as query
content, contradicting the claim on both counts. -/
theorem C5_counterexample_malformed_bool_directive :
    (Query.parse [] "verbose:banana").verbose = some false ∧
    (Query.parse [] "verbose:banana").query_string = [] ∧
    ¬ ("verbose:banana".data ∈ (Query.parse [] "verbose:banana").query_terms) := by
  refine ⟨?_, ?_, ?_⟩ <;> decide

/-- C5 amended: a `key:value` token whose key is a recognized boolean
directive (`verbose`, `auto`) is always consumed — it never remains part
of the effective query string — and the directive is set to the truth
value of `value ∈ truthy`, which is `False` (not left unset) whenever the
value is outside the fixed truthy vocabulary. -/
theorem C5_amended_malformed_bool_directive_consumed
    (enum : CvdEnum) (acc : QueryAcc) (t : List Char)
    (hcolon : ':' ∈ t) (hkey : tokenKey t ∈ boolKeys)
    (hval : ¬ tokenValue t ∈ marshmallowTruthy) :
    (processToken enum acc t).query_terms = acc.query_terms ∧
    ((tokenKey t = ("verbose".data) ∧
        (processToken enum acc t).verbose = some false) ∨
     (tokenKey t = ("auto".data) ∧
        (processToken enum acc t).auto = some false)) := by
  have hd : isDirectiveTok t = true := by simp [isDirectiveTok, hcolon, hkey]
  constructor
  · rw [processToken_query_terms, if_pos hd]
  · have hbk : tokenKey t = ("verbose".data) ∨ tokenKey t = ("auto".data) := by
      simpa [boolKeys] using hkey
    rcases hbk with hv | ha
    · left
      refine ⟨hv, ?_⟩
      simp only [processToken]
      rw [if_pos hcolon, if_pos hkey, if_pos hv]
      simp [hval]
    · right
      refine ⟨ha, ?_⟩
      simp only [processToken]
      rw [if_pos hcolon, if_pos hkey, if_neg (by rw [ha]; decide)]
      simp [hval]

/-- Witness for the amended C5 at the concrete token `auto:no` (the spec's
own scenario value): the token is consumed and `auto` is set to `False`. -/
theorem C5_amended_witness :
    (processToken [] ⟨none, none, none, []⟩ ("auto:no".data)).query_terms = [] ∧
    ((tokenKey ("auto:no".data) = ("verbose".data) ∧
        (processToken [] ⟨none, none, none, []⟩ ("auto:no".data)).verbose = some false) ∨
     (tokenKey ("auto:no".data) = ("auto".data) ∧
        (processToken [] ⟨none, none, none, []⟩ ("auto:no".data)).auto = some false)) :=
  C5_amended_malformed_bool_directive_consumed [] ⟨none, none, none, []⟩
    ("auto:no".data) (by decide) (by decide) (by decide)

lemma exactMatchLoop_subset (q : List Char) (db : List Wordform) :
    ∀ (analyses analyses' : List RichAnalysis) (run run' : SearchRun),
      exactMatchLoop q db analyses run = .ok (analyses', run') →
      analyses' ⊆ analyses := by
  induction db with
  | nil =>
    intro analyses analyses' run run' h
    rw [exactMatchLoop] at h
    cases h
    exact fun a ha => ha
  | cons wf rest ih =>
    intro analyses analyses' run run' h
    rw [exactMatchLoop] at h
    cases ha : wf.analysis with
    | none => rw [ha] at h; dsimp only at h; cases h
    | some a =>
      rw [ha] at h
      dsimp only at h
      by_cases hmem : a ∈ analyses
      · rw [if_pos hmem] at h
        exact fun b hb => List.mem_of_mem_erase (ih _ _ _ _ h hb)
      · rw [if_neg hmem] at h
        cases h

lemma exactMatchLoop_nodup (q : List Char) (db : List Wordform) :
    ∀ (analyses analyses' : List RichAnalysis) (run run' : SearchRun),
      analyses.Nodup →
      exactMatchLoop q db analyses run = .ok (analyses', run') →
      analyses'.Nodup := by
  induction db with
  | nil =>
    intro analyses analyses' run run' hnd h
    rw [exactMatchLoop] at h
    cases h
    exact hnd
  | cons wf rest ih =>
    intro analyses analyses' run run' hnd h
    rw [exactMatchLoop] at h
    cases ha : wf.analysis with
    | none => rw [ha] at h; dsimp only at h; cases h
    | some a =>
      rw [ha] at h
      dsimp only at h
      by_cases hmem : a ∈ analyses
      · rw [if_pos hmem] at h
        exact ih _ _ _ _ (hnd.erase a) h
      · rw [if_neg hmem] at h
        cases h

lemma exactMatchLoop_preserves_evidence (q : List Char) (db : List Wordform) :
    ∀ (analyses analyses' : List RichAnalysis) (run run' : SearchRun),
      exactMatchLoop q db analyses run = .ok (analyses', run') →
      ∀ k f, run.results.EvidenceIn k f → run'.results.EvidenceIn k f := by
  induction db with
  | nil =>
    intro analyses analyses' run run' h k f hev
    rw [exactMatchLoop] at h
    cases h
    exact hev
  | cons wf rest ih =>
    intro analyses analyses' run run' h k f hev
    rw [exactMatchLoop] at h
    cases ha : wf.analysis with
    | none => rw [ha] at h; dsimp only at h; cases h
    | some a =>
      rw [ha] at h
      dsimp only at h
      by_cases hmem : a ∈ analyses
      · rw [if_pos hmem] at h
        exact ih _ _ _ _ h k f
          (run.results.evidenceIn_addResult_of_evidenceIn _ k f hev)
      · rw [if_neg hmem] at h
        cases h

lemma exactMatchLoop_error_shape (q : List Char) (db : List Wordform) :
    ∀ (analyses : List RichAnalysis) (run : SearchRun) (e : PyError),
      exactMatchLoop q db analyses run = .error e →
      ∃ msg, e = .assertionError msg := by
  induction db with
  | nil =>
    intro analyses run e h
    rw [exactMatchLoop] at h
    cases h
  | cons wf rest ih =>
    intro analyses run e h
    rw [exactMatchLoop] at h
    cases ha : wf.analysis with
    | none =>
      rw [ha] at h
      dsimp only at h
      cases h
      exact ⟨_, rfl⟩
    | some a =>
      rw [ha] at h
      dsimp only at h
      by_cases hmem : a ∈ analyses
      · rw [if_pos hmem] at h
        exact ih _ _ _ h
      · rw [if_neg hmem] at h
        cases h
        exact ⟨_, rfl⟩

lemma exactMatchLoop_spec (q : List Char) (db : List Wordform) :
    ∀ (analyses analyses' : List RichAnalysis) (run run' : SearchRun),
      analyses.Nodup →
      exactMatchLoop q db analyses run = .ok (analyses', run') →
      ∀ wf ∈ db,
        run'.results.EvidenceIn wf.key (.sourceLanguageMatch wf.text) ∧
        run'.results.EvidenceIn wf.key
          (.queryWordformEditDistance (editDist wf.text.data q)) ∧
        ∀ a, wf.analysis = some a → ¬ a ∈ analyses' := by
  induction db with
  | nil =>
    intro analyses analyses' run run' hnd h wf hwf
    cases hwf
  | cons wf0 rest ih =>
    intro analyses analyses' run run' hnd h wf hwf
    rw [exactMatchLoop] at h
    cases ha : wf0.analysis with
    | none => rw [ha] at h; dsimp only at h; cases h
    | some a =>
      rw [ha] at h
      dsimp only at h
      by_cases hmem : a ∈ analyses
      · rw [if_pos hmem] at h
        rcases List.mem_cons.1 hwf with heq | hrest
        · subst heq
          have hadd1 : (run.results.addResult
              ⟨wf, [.sourceLanguageMatch wf.text,
                .queryWordformEditDistance (editDist wf.text.data q)], none⟩).EvidenceIn
              wf.key (.sourceLanguageMatch wf.text) :=
            run.results.evidenceIn_addResult_self _ _ (by simp)
          have hadd2 : (run.results.addResult
              ⟨wf, [.sourceLanguageMatch wf.text,
                .queryWordformEditDistance (editDist wf.text.data q)], none⟩).EvidenceIn
              wf.key (.queryWordformEditDistance (editDist wf.text.data q)) :=
            run.results.evidenceIn_addResult_self _ _ (by simp)
          refine ⟨exactMatchLoop_preserves_evidence q rest _ _ _ _ h _ _ hadd1,
                  exactMatchLoop_preserves_evidence q rest _ _ _ _ h _ _ hadd2, ?_⟩
          intro b hb hbmem
          rw [ha] at hb
          have hba : a = b := by injection hb
          subst hba
          have hsub := exactMatchLoop_subset q rest _ _ _ _ h
          have hin : a ∈ analyses.erase a := hsub hbmem
          exact ((List.Nodup.mem_erase_iff hnd).1 hin).1 rfl
        · exact ih _ _ _ _ (hnd.erase a) h wf hrest
      · rw [if_neg hmem] at h
        cases h

/-- C2: in the relaxed-analysis exact-match strategy, for every wordform
found in the lexicon whose stored analysis exactly equals one of the
relaxed analyses of the query, a Result is added carrying source-language
surface-match evidence and the edit distance between that wordform's text
and the query, and that analysis is removed from the candidate set so it
cannot also trigger synthetic generation; the only loud failure of the
loop is the internal consistency assertion that the wordform's own
analysis is contained in the candidate set. -/
theorem C2_relaxed_exact_match_strategy (env : Env) (q : List Char)
    (run : SearchRun) (hnodup : (env.analyzeRelaxed q).Nodup) :
    (∀ analyses' run',
      exactMatchLoop q (dbMatches env (env.analyzeRelaxed q))
          (env.analyzeRelaxed q) run = .ok (analyses', run') →
      ∀ wf ∈ dbMatches env (env.analyzeRelaxed q),
        run'.results.EvidenceIn wf.key (.sourceLanguageMatch wf.text) ∧
        run'.results.EvidenceIn wf.key
          (.queryWordformEditDistance (editDist wf.text.data q)) ∧
        ∀ a, wf.analysis = some a → ¬ a ∈ analyses') ∧
    (∀ e, exactMatchLoop q (dbMatches env (env.analyzeRelaxed q))
          (env.analyzeRelaxed q) run = .error e →
      ∃ msg, e = PyError.assertionError msg) :=
  ⟨fun analyses' run' hok =>
     exactMatchLoop_spec q (dbMatches env (env.analyzeRelaxed q))
       (env.analyzeRelaxed q) analyses' run run' hnodup hok,
   fun e he =>
     exactMatchLoop_error_shape q (dbMatches env (env.analyzeRelaxed q))
       (env.analyzeRelaxed q) run e he⟩

/-- Witness for C2 at a concrete environment: one lexicon wordform whose
stored analysis matches the single relaxed analysis of the query receives
surface-match evidence, and the analysis set is emptied. -/
theorem C2_relaxed_exact_match_witness :
    ∃ analyses' run',
      exactMatchLoop ['a']
          (dbMatches
            ⟨[⟨some 1, "acâhkos", some ⟨[], "acâhkos", ["+N"]⟩, true, none⟩],
             fun _ => [], fun _ => [], fun _ => [⟨[], "acâhkos", ["+N"]⟩],
             fun _ => [], fun _ => []⟩
            [⟨[], "acâhkos", ["+N"]⟩])
          [⟨[], "acâhkos", ["+N"]⟩] (SearchRun.init [] "a" none) =
        .ok (analyses', run') ∧
      run'.results.EvidenceIn (WordformKey.pk 1)
        (.sourceLanguageMatch "acâhkos") ∧
      ¬ (⟨[], "acâhkos", ["+N"]⟩ : RichAnalysis) ∈ analyses' :=
  ⟨_, _, rfl,
   ((C2_relaxed_exact_match_strategy
      ⟨[⟨some 1, "acâhkos", some ⟨[], "acâhkos", ["+N"]⟩, true, none⟩],
       fun _ => [], fun _ => [], fun _ => [⟨[], "acâhkos", ["+N"]⟩],
       fun _ => [], fun _ => []⟩
      ['a'] (SearchRun.init [] "a" none) (by decide)).1 _ _ rfl
      ⟨some 1, "acâhkos", some ⟨[], "acâhkos", ["+N"]⟩, true, none⟩
      (by decide)).1,
   (((C2_relaxed_exact_match_strategy
      ⟨[⟨some 1, "acâhkos", some ⟨[], "acâhkos", ["+N"]⟩, true, none⟩],
       fun _ => [], fun _ => [], fun _ => [⟨[], "acâhkos", ["+N"]⟩],
       fun _ => [], fun _ => []⟩
      ['a'] (SearchRun.init [] "a" none) (by decide)).1 _ _ rfl
      ⟨some 1, "acâhkos", some ⟨[], "acâhkos", ["+N"]⟩, true, none⟩
      (by decide)).2.2 ⟨[], "acâhkos", ["+N"]⟩ rfl)⟩

lemma foldl_addResult_preserves {α : Type} (g : α → Result) (xs : List α) :
    ∀ (run : SearchRun) (k : WordformKey) (f : Feature),
      run.results.EvidenceIn k f →
      (xs.foldl (fun run x => (run.add_result (.result (g x))).2) run).results.EvidenceIn
        k f := by
  induction xs with
  | nil => intro run k f h; exact h
  | cons x xs ih =>
    intro run k f h
    rw [List.foldl_cons]
    exact ih _ k f (run.results.evidenceIn_addResult_of_evidenceIn _ k f h)

lemma syntheticStepOne_preserves (env : Env) (q : List Char)
    (a : RichAnalysis) (run : SearchRun) (k : WordformKey) (f : Feature)
    (h : run.results.EvidenceIn k f) :
    (syntheticStepOne env q run a).results.EvidenceIn k f := by
  unfold syntheticStepOne
  cases hg : env.generateStrict a.smushed with
  | nil => exact h
  | cons f0 rest =>
    exact foldl_addResult_preserves _ _ run k f h

lemma syntheticStep_preserves (env : Env) (q : List Char)
    (analyses : List RichAnalysis) :
    ∀ (run : SearchRun) (k : WordformKey) (f : Feature),
      run.results.EvidenceIn k f →
      (syntheticStep env q analyses run).results.EvidenceIn k f := by
  induction analyses with
  | nil => intro run k f h; exact h
  | cons a rest ih =>
    intro run k f h
    show (List.foldl _ (syntheticStepOne env q run a) rest).results.EvidenceIn k f
    exact ih _ k f (syntheticStepOne_preserves env q a run k f h)

/-- C4: for every analysis remaining after the exact-match step whose
strict generation yields no surface string, a diagnostic is logged, the
analysis contributes no result, and the loop continues with the remaining
analyses; the failure is never fatal and existing results are never
dropped. -/
theorem C4_generation_failure_logged_and_skipped (env : Env) (q : List Char)
    (run : SearchRun) (a : RichAnalysis) (l₁ l₂ : List RichAnalysis)
    (hgen : env.generateStrict a.smushed = []) :
    (∀ run₀ : SearchRun, (syntheticStepOne env q run₀ a).results = run₀.results) ∧
    (∀ run₀ : SearchRun, (syntheticStepOne env q run₀ a).log =
      run₀.log ++ ["Cannot generate normative form for analysis"]) ∧
    syntheticStep env q (l₁ ++ a :: l₂) run =
      syntheticStep env q l₂
        (syntheticStepOne env q (syntheticStep env q l₁ run) a) ∧
    (∀ k f, run.results.EvidenceIn k f →
      (syntheticStep env q (l₁ ++ a :: l₂) run).results.EvidenceIn k f) := by
  have hone : ∀ run₀ : SearchRun,
      syntheticStepOne env q run₀ a =
        { run₀ with log :=
            run₀.log ++ ["Cannot generate normative form for analysis"] } := by
    intro run₀
    unfold syntheticStepOne
    rw [hgen]
  refine ⟨?_, ?_, ?_, ?_⟩
  · intro run₀
    rw [hone run₀]
  · intro run₀
    rw [hone run₀]
  · unfold syntheticStep
    rw [List.foldl_append, List.foldl_cons]
  · intro k f h
    exact syntheticStep_preserves env q (l₁ ++ a :: l₂) run k f h

/-- Witness for C4 at a concrete environment whose generator produces
nothing for the single analysis: the step only logs and the existing
result survives the whole loop. -/
theorem C4_generation_failure_witness :
    ((syntheticStepOne
        ⟨[], fun _ => [], fun _ => [], fun _ => [], fun _ => [], fun _ => []⟩
        ['a'] (SearchRun.init [] "a" none) ⟨[], "nipâw", ["+V"]⟩).results =
      (SearchRun.init [] "a" none).results) ∧
    ((syntheticStepOne
        ⟨[], fun _ => [], fun _ => [], fun _ => [], fun _ => [], fun _ => []⟩
        ['a'] (SearchRun.init [] "a" none) ⟨[], "nipâw", ["+V"]⟩).log =
      (SearchRun.init [] "a" none).log ++
        ["Cannot generate normative form for analysis"]) :=
  ⟨(C4_generation_failure_logged_and_skipped
      ⟨[], fun _ => [], fun _ => [], fun _ => [], fun _ => [], fun _ => []⟩
      ['a'] (SearchRun.init [] "a" none) ⟨[], "nipâw", ["+V"]⟩ [] [] rfl).1
      (SearchRun.init [] "a" none),
   (C4_generation_failure_logged_and_skipped
      ⟨[], fun _ => [], fun _ => [], fun _ => [], fun _ => [], fun _ => []⟩
      ['a'] (SearchRun.init [] "a" none) ⟨[], "nipâw", ["+V"]⟩ [] [] rfl).2.1
      (SearchRun.init [] "a" none)⟩

lemma pyMin_mem {β : Type} (g : β → Nat) :
    ∀ (rest : List β) (x : β), pyMin g x rest ∈ x :: rest := by
  intro rest
  induction rest with
  | nil => intro x; exact List.mem_singleton_self x
  | cons y ys ih =>
    intro x
    show pyMin g (if g y < g x then y else x) ys ∈ x :: y :: ys
    rcases List.mem_cons.1 (ih (if g y < g x then y else x)) with h | h
    · rw [h]
      by_cases hyx : g y < g x
      · rw [if_pos hyx]
        exact List.mem_cons_of_mem _ (List.mem_cons_self _ _)
      · rw [if_neg hyx]
        exact List.mem_cons_self _ _
    · exact List.mem_cons_of_mem _ (List.mem_cons_of_mem _ h)

lemma pyMin_le {β : Type} (g : β → Nat) :
    ∀ (rest : List β) (x : β) (f : β), f ∈ x :: rest →
      g (pyMin g x rest) ≤ g f := by
  intro rest
  induction rest with
  | nil =>
    intro x f hf
    rw [List.mem_singleton] at hf
    rw [hf]
    exact Nat.le_refl _
  | cons y ys ih =>
    intro x f hf
    show g (pyMin g (if g y < g x then y else x) ys) ≤ g f
    have hz : g (pyMin g (if g y < g x then y else x) ys) ≤
        g (if g y < g x then y else x) :=
      ih _ _ (List.mem_cons_self _ _)
    rcases List.mem_cons.1 hf with hfx | hf2
    · subst hfx
      by_cases hyx : g y < g f
      · rw [if_pos hyx] at hz ⊢
        exact Nat.le_trans hz (Nat.le_of_lt hyx)
      · rw [if_neg hyx] at hz ⊢
        exact hz
    · rcases List.mem_cons.1 hf2 with hfy | hf3
      · subst hfy
        by_cases hyx : g f < g x
        · rw [if_pos hyx] at hz ⊢
          exact hz
        · rw [if_neg hyx] at hz ⊢
          exact Nat.le_trans hz (Nat.le_of_not_lt hyx)
      · exact ih _ f (List.mem_cons_of_mem _ hf3)

lemma pyMin_first {β : Type} (g : β → Nat) :
    ∀ (rest : List β) (x : β),
      List.find? (fun f => g f ≤ g (pyMin g x rest)) (x :: rest) =
        some (pyMin g x rest) := by
  intro rest
  induction rest with
  | nil =>
    intro x
    exact List.find?_cons_of_pos _ (by simp [pyMin])
  | cons y ys ih =>
    intro x
    have hsel : pyMin g x (y :: ys) = pyMin g (if g y < g x then y else x) ys := rfl
    by_cases hyx : g y < g x
    · have hz := ih (if g y < g x then y else x)
      rw [if_pos hyx] at hz
      have hle : g (pyMin g y ys) ≤ g y :=
        pyMin_le g ys y y (List.mem_cons_self _ _)
      rw [hsel, if_pos hyx]
      rw [List.find?_cons_of_neg _ (by
        intro hcon
        exact absurd (of_decide_eq_true hcon)
          (Nat.not_le.mpr (Nat.lt_of_le_of_lt hle hyx)))]
      exact hz
    · have hz := ih (if g y < g x then y else x)
      rw [if_neg hyx] at hz
      rw [hsel, if_neg hyx]
      have hle : g (pyMin g x ys) ≤ g x :=
        pyMin_le g ys x x (List.mem_cons_self _ _)
      by_cases hx : g x ≤ g (pyMin g x ys)
      · have hx2 := List.find?_cons_of_pos (p := fun f => g f ≤ g (pyMin g x ys))
          ys (by simpa using hx)
        have hxs : some x = some (pyMin g x ys) := hx2.symm.trans hz
        rw [List.find?_cons_of_pos _ (by simpa using hx)]
        exact hxs
      · have hz2 : List.find? (fun f => g f ≤ g (pyMin g x ys)) ys =
            some (pyMin g x ys) := by
          rw [List.find?_cons_of_neg _ (by simpa using hx)] at hz
          exact hz
        rw [List.find?_cons_of_neg _ (by simpa using hx),
          List.find?_cons_of_neg _ (by
            intro hcon
            exact absurd (of_decide_eq_true hcon)
              (Nat.not_le.mpr (Nat.lt_of_lt_of_le (Nat.not_le.mp hx)
                (Nat.le_of_not_lt hyx))))]
        exact hz2

lemma foldr_max_ge (l : List Nat) : ∀ x ∈ l, x ≤ l.foldr max 0 := by
  induction l with
  | nil => intro x hx; cases hx
  | cons a as ih =>
    intro x hx
    rw [List.foldr_cons]
    rcases List.mem_cons.1 hx with h | h
    · subst h
      exact Nat.le_max_left _ _
    · exact Nat.le_trans (ih x h) (Nat.le_max_right _ _)

lemma foldr_max_mem (l : List Nat) (h : l ≠ []) : l.foldr max 0 ∈ l := by
  induction l with
  | nil => cases h rfl
  | cons a as ih =>
    cases as with
    | nil => simp
    | cons b bs =>
      rw [List.foldr_cons]
      by_cases hab : (b :: bs).foldr max 0 ≤ a
      · rw [Nat.max_eq_left hab]
        exact List.mem_cons_self _ _
      · rw [Nat.max_eq_right (Nat.le_of_not_le hab)]
        exact List.mem_cons_of_mem _ (ih (by simp))

lemma disambiguate_spec (analysis : RichAnalysis) (cands : List Wordform)
    (h : 1 < cands.length) :
    (∀ lwf, lwf ∈ disambiguate analysis cands ↔
      (lwf ∈ cands ∧ ∀ w ∈ cands,
        analysis.tagIntersectionCount w.analysis ≤
          analysis.tagIntersectionCount lwf.analysis)) ∧
    disambiguate analysis cands ≠ [] := by
  unfold disambiguate
  rw [if_pos h]
  have hup : ∀ w ∈ cands,
      analysis.tagIntersectionCount w.analysis ≤
        ((cands.map fun lwf =>
          analysis.tagIntersectionCount lwf.analysis).foldr max 0) :=
    fun w hw => foldr_max_ge _ _ (List.mem_map_of_mem _ hw)
  have hmem : ∃ w ∈ cands,
      analysis.tagIntersectionCount w.analysis =
        ((cands.map fun lwf =>
          analysis.tagIntersectionCount lwf.analysis).foldr max 0) := by
    have hne : (cands.map fun lwf =>
        analysis.tagIntersectionCount lwf.analysis) ≠ [] := by
      intro hc
      have : cands = [] := by simpa using hc
      rw [this] at h
      simp at h
    obtain ⟨w, hw, hwm⟩ := List.mem_map.1 (foldr_max_mem _ hne)
    exact ⟨w, hw, hwm⟩
  constructor
  · intro lwf
    rw [List.mem_filter]
    constructor
    · rintro ⟨hin, heq⟩
      have heq' := of_decide_eq_true heq
      exact ⟨hin, fun w hw => heq' ▸ hup w hw⟩
    · rintro ⟨hin, hmax⟩
      refine ⟨hin, decide_eq_true ?_⟩
      have h1 := hup lwf hin
      obtain ⟨w, hw, hwm⟩ := hmem
      have h2 := hmax w hw
      omega
  · obtain ⟨w, hw, hwm⟩ := hmem
    intro hnil
    have hmem2 : w ∈ cands.filter (fun lwf =>
        analysis.tagIntersectionCount lwf.analysis =
          ((cands.map fun lwf =>
            analysis.tagIntersectionCount lwf.analysis).foldr max 0)) :=
      List.mem_filter.2 ⟨hw, decide_eq_true hwm⟩
    rw [hnil] at hmem2
    cases hmem2

/-- C3: in the synthetic-generation strategy, when strict generation
yields surface strings, the one with minimum edit distance to the query
is selected — ties broken by the generator's enumeration order, first
minimal element wins; when more than one lemma wordform shares the
analysis's lemma text, exactly the candidates with maximal
tag-intersection count against the analysis are kept (ties among maximal
candidates are not broken further); and the step performs one
`add_result` call per surviving lemma candidate, each carrying the
synthetic wordform for that candidate. -/
theorem C3_synthetic_selection_and_disambiguation (env : Env) (q : List Char)
    (run : SearchRun) (a : RichAnalysis) (f0 : List Char)
    (rest : List (List Char))
    (hgen : env.generateStrict a.smushed = f0 :: rest) :
    (pyMin (fun f => editDist f q) f0 rest ∈ f0 :: rest) ∧
    (∀ f ∈ f0 :: rest,
      editDist (pyMin (fun f => editDist f q) f0 rest) q ≤ editDist f q) ∧
    (List.find? (fun f => editDist f q ≤
        editDist (pyMin (fun f => editDist f q) f0 rest) q) (f0 :: rest) =
      some (pyMin (fun f => editDist f q) f0 rest)) ∧
    (1 < (lemmaCandidates env a).length →
      (∀ lwf, lwf ∈ disambiguate a (lemmaCandidates env a) ↔
        (lwf ∈ lemmaCandidates env a ∧ ∀ w ∈ lemmaCandidates env a,
          a.tagIntersectionCount w.analysis ≤
            a.tagIntersectionCount lwf.analysis)) ∧
      disambiguate a (lemmaCandidates env a) ≠ []) ∧
    syntheticStepOne env q run a =
      run.addResults ((disambiguate a (lemmaCandidates env a)).map (fun lwf =>
        ⟨⟨none, String.mk (pyMin (fun f => editDist f q) f0 rest), some a, false,
          some lwf.key⟩,
         [.pronounAsIsMatch,
          .queryWordformEditDistance
            (editDist q (pyMin (fun f => editDist f q) f0 rest))], none⟩)) := by
  refine ⟨pyMin_mem (fun f => editDist f q) rest f0,
    fun f hf => pyMin_le (fun f => editDist f q) rest f0 f hf,
    pyMin_first (fun f => editDist f q) rest f0,
    fun hlen => disambiguate_spec a (lemmaCandidates env a) hlen, ?_⟩
  unfold syntheticStepOne SearchRun.addResults
  rw [hgen]
  rw [List.foldl_map]

/-- Witness for C3 at a concrete environment: the generator yields two
forms and the first-minimal one is selected; two lemma candidates share
the lemma text and disambiguation keeps a nonempty maximal subset. -/
theorem C3_synthetic_selection_witness :
    (List.find? (fun f => editDist f ['m','i'] ≤
        editDist (pyMin (fun f => editDist f ['m','i']) ['m','i'] [['m','a']])
          ['m','i']) [['m','i'], ['m','a']] =
      some (pyMin (fun f => editDist f ['m','i']) ['m','i'] [['m','a']])) ∧
    disambiguate ⟨[], "mi", ["+N"]⟩
      (lemmaCandidates
        ⟨[⟨some 1, "mi", some ⟨[], "mi", ["+N"]⟩, true, none⟩,
          ⟨some 2, "mi", some ⟨[], "mi", ["+V"]⟩, true, none⟩],
         fun _ => [], fun _ => [], fun _ => [],
         fun _ => [['m','i'], ['m','a']], fun _ => []⟩
        ⟨[], "mi", ["+N"]⟩) ≠ [] :=
  ⟨(C3_synthetic_selection_and_disambiguation
      ⟨[⟨some 1, "mi", some ⟨[], "mi", ["+N"]⟩, true, none⟩,
        ⟨some 2, "mi", some ⟨[], "mi", ["+V"]⟩, true, none⟩],
       fun _ => [], fun _ => [], fun _ => [],
       fun _ => [['m','i'], ['m','a']], fun _ => []⟩
      ['m','i'] (SearchRun.init [] "mi" none) ⟨[], "mi", ["+N"]⟩
      ['m','i'] [['m','a']] rfl).2.2.1,
   ((C3_synthetic_selection_and_disambiguation
      ⟨[⟨some 1, "mi", some ⟨[], "mi", ["+N"]⟩, true, none⟩,
        ⟨some 2, "mi", some ⟨[], "mi", ["+V"]⟩, true, none⟩],
       fun _ => [], fun _ => [], fun _ => [],
       fun _ => [['m','i'], ['m','a']], fun _ => []⟩
      ['m','i'] (SearchRun.init [] "mi" none) ⟨[], "mi", ["+N"]⟩
      ['m','i'] [['m','a']] rfl).2.2.2.1 (by decide)).2⟩

lemma ResultMap.noPreverb_addResult (m : ResultMap) (r : Result)
    (hm : m.NoPreverb) (hr : ∀ f ∈ r.evidence, ¬ f = Feature.preverbMatch) :
    (m.addResult r).NoPreverb := by
  unfold ResultMap.addResult
  by_cases hk : m.hasKey r.wordform.key
  · rw [if_pos hk]
    intro e he f hf
    unfold ResultMap.mergeAt at he
    obtain ⟨e0, he0, heq⟩ := List.mem_map.1 he
    by_cases he0k : e0.1 = r.wordform.key
    · rw [if_pos he0k] at heq
      subst heq
      rcases List.mem_append.1 hf with h1 | h2
      · exact hm e0 he0 f h1
      · exact hr f h2
    · rw [if_neg he0k] at heq
      subst heq
      exact hm e0 he0 f hf
  · rw [if_neg hk]
    intro e he f hf
    rcases List.mem_append.1 he with h1 | h2
    · exact hm e h1 f hf
    · rw [List.mem_singleton] at h2
      subst h2
      exact hr f hf

lemma foldl_addResult_noPreverb {α : Type} (g : α → Result)
    (hg : ∀ x, ∀ f ∈ (g x).evidence, ¬ f = Feature.preverbMatch)
    (xs : List α) :
    ∀ run : SearchRun, run.results.NoPreverb →
      ((xs.foldl (fun run x => (run.add_result (.result (g x))).2) run).results).NoPreverb := by
  induction xs with
  | nil => intro run h; exact h
  | cons x xs ih =>
    intro run h
    rw [List.foldl_cons]
    exact ih _ (run.results.noPreverb_addResult (g x) h (hg x))

lemma fetch_results_from_keywords_noPreverb (env : Env) (run : SearchRun)
    (h : run.results.NoPreverb) :
    (fetch_results_from_keywords env run).results.NoPreverb := by
  unfold fetch_results_from_keywords
  generalize env.stemKeywords run.internal_query = kws
  induction kws generalizing run with
  | nil => exact h
  | cons kw kws ih =>
    rw [List.foldl_cons]
    apply ih
    exact foldl_addResult_noPreverb _ (by intro x f hf; simp at hf; rw [hf]; simp)
      _ run h

lemma exactMatchLoop_noPreverb (q : List Char) (db : List Wordform) :
    ∀ (analyses analyses' : List RichAnalysis) (run run' : SearchRun),
      run.results.NoPreverb →
      exactMatchLoop q db analyses run = .ok (analyses', run') →
      run'.results.NoPreverb := by
  induction db with
  | nil =>
    intro analyses analyses' run run' hnp h
    rw [exactMatchLoop] at h
    cases h
    exact hnp
  | cons wf rest ih =>
    intro analyses analyses' run run' hnp h
    rw [exactMatchLoop] at h
    cases ha : wf.analysis with
    | none => rw [ha] at h; dsimp only at h; cases h
    | some a =>
      rw [ha] at h
      dsimp only at h
      by_cases hmem : a ∈ analyses
      · rw [if_pos hmem] at h
        refine ih _ _ _ _ ?_ h
        apply run.results.noPreverb_addResult _ hnp
        intro f hf
        rcases List.mem_cons.1 hf with h1 | h2
        · rw [h1]; simp
        · rw [List.mem_singleton] at h2; rw [h2]; simp
      · rw [if_neg hmem] at h
        cases h

lemma syntheticStepOne_noPreverb (env : Env) (q : List Char)
    (a : RichAnalysis) (run : SearchRun) (h : run.results.NoPreverb) :
    (syntheticStepOne env q run a).results.NoPreverb := by
  unfold syntheticStepOne
  cases hg : env.generateStrict a.smushed with
  | nil => exact h
  | cons f0 rest =>
    refine foldl_addResult_noPreverb _ ?_ _ run h
    intro x f hf
    rcases List.mem_cons.1 hf with h1 | h2
    · rw [h1]; simp
    · rw [List.mem_singleton] at h2; rw [h2]; simp

lemma syntheticStep_noPreverb (env : Env) (q : List Char)
    (analyses : List RichAnalysis) :
    ∀ run : SearchRun, run.results.NoPreverb →
      (syntheticStep env q analyses run).results.NoPreverb := by
  induction analyses with
  | nil => intro run h; exact h
  | cons a rest ih =>
    intro run h
    show (List.foldl _ (syntheticStepOne env q run a) rest).results.NoPreverb
    exact ih _ (syntheticStepOne_noPreverb env q a run h)

unseal pySplit in
/-- C6 counterexample: an environment whose preverb index matches the
query (after hyphen and diacritic stripping) yet whose other strategies
find nothing: `fetch_results` returns before the preverb block (the bare
`return` at `lookup.py` line 124), so the run ends with no results at
all — the matching preverb wordform is never added. -/
theorem C6_counterexample_preverb_step_never_runs :
    fetch_preverbs
        ⟨[], fun _ => [], fun _ => [], fun _ => [], fun _ => [],
         fun uq => if uq = ("nitawi".data) then
           [⟨some 9, "nitawi-", none, false, none⟩] else []⟩
        (SearchRun.init [] "nitawi-" none).internal_query ≠ [] ∧
    ∃ run',
      fetch_results
          ⟨[], fun _ => [], fun _ => [], fun _ => [], fun _ => [],
           fun uq => if uq = ("nitawi".data) then
             [⟨some 9, "nitawi-", none, false, none⟩] else []⟩
          (SearchRun.init [] "nitawi-" none) = .ok run' ∧
      run'.results = [] := by
  refine ⟨by decide, _, rfl, ?_⟩
  decide

/-- C6 amended: the preverb-match step never executes — `fetch_results`
returns immediately after the synthetic-generation step (the bare
`return` at `lookup.py` line 124 leaves the preverb block unreachable),
so no Result it produces ever carries preverb-match evidence; the helper
`fetch_preverbs` itself, when called directly, strips one trailing hyphen,
strips diacritics, and returns the preverb-index bucket for the stripped
form. -/
theorem C6_amended_preverb_step_dead_code (env : Env) (run : SearchRun)
    (uq : List Char) (hclean : run.results.NoPreverb) :
    (∀ run', fetch_results env run = .ok run' → run'.results.NoPreverb) ∧
    fetch_preverbs env uq =
      env.preverbLookup (removeCreeDiacritics
        (if uq.getLast? = some '-' then uq.dropLast else uq)) := by
  constructor
  · intro run' h
    unfold fetch_results at h
    dsimp only at h
    cases hloop : exactMatchLoop (fetch_results_from_keywords env run).internal_query
        (dbMatches env (env.analyzeRelaxed
          (fetch_results_from_keywords env run).internal_query))
        (env.analyzeRelaxed (fetch_results_from_keywords env run).internal_query)
        (fetch_results_from_keywords env run) with
    | error e =>
      rw [hloop] at h
      cases h
    | ok pr =>
      obtain ⟨remaining, run2⟩ := pr
      rw [hloop] at h
      dsimp only at h
      have hok : syntheticStep env run2.internal_query remaining run2 = run' := by
        injection h
      rw [← hok]
      exact syntheticStep_noPreverb env _ remaining run2
        (exactMatchLoop_noPreverb _ _ _ _ _ _
          (fetch_results_from_keywords_noPreverb env run hclean) hloop)
  · rfl

/-- Witness for the amended C6: on a concrete run with no prior results,
`fetch_results` yields a result set without preverb evidence, and
`fetch_preverbs` resolves the hyphen-stripped, diacritic-stripped form
through the index. -/
theorem C6_amended_preverb_witness :
    fetch_preverbs
        ⟨[], fun _ => [], fun _ => [], fun _ => [], fun _ => [],
         fun uq => if uq = ("nitawi".data) then
           [⟨some 9, "nitawi-", none, false, none⟩] else []⟩
        ("nitawi-".data) =
      (fun uq => if uq = ("nitawi".data) then
           ([⟨some 9, "nitawi-", none, false, none⟩] : List Wordform) else [])
        (removeCreeDiacritics
          (if ("nitawi-".data).getLast? = some '-' then
            ("nitawi-".data).dropLast else ("nitawi-".data))) :=
  (C6_amended_preverb_step_dead_code
      ⟨[], fun _ => [], fun _ => [], fun _ => [], fun _ => [],
       fun uq => if uq = ("nitawi".data) then
         [⟨some 9, "nitawi-", none, false, none⟩] else []⟩
      (SearchRun.init [] "nitawi-" none) ("nitawi-".data)
      (by intro e he; cases he)).2

lemma WordformKey.sortCode_inj {k₁ k₂ : WordformKey}
    (h : k₁.sortCode = k₂.sortCode) : k₁ = k₂ := by
  cases k₁ with
  | pk n =>
    cases k₂ with
    | pk m =>
      simp only [WordformKey.sortCode, Equiv.apply_eq_iff_eq, Prod.mk.injEq] at h
      rw [h.2.1]
    | synthetic t a =>
      cases a <;>
        simp only [WordformKey.sortCode, Equiv.apply_eq_iff_eq, Prod.mk.injEq] at h <;>
        exact absurd h.1 (by decide)
  | synthetic t a =>
    cases k₂ with
    | pk m =>
      cases a <;>
        simp only [WordformKey.sortCode, Equiv.apply_eq_iff_eq, Prod.mk.injEq] at h <;>
        exact absurd h.1 (by decide)
    | synthetic t' a' =>
      cases a with
      | none =>
        cases a' with
        | none =>
          simp only [WordformKey.sortCode, Equiv.apply_eq_iff_eq, Prod.mk.injEq] at h
          rw [h.2.2.1]
        | some x =>
          simp only [WordformKey.sortCode, Equiv.apply_eq_iff_eq, Prod.mk.injEq] at h
          exact absurd h.2.1 (by decide)
      | some x =>
        cases a' with
        | none =>
          simp only [WordformKey.sortCode, Equiv.apply_eq_iff_eq, Prod.mk.injEq] at h
          exact absurd h.2.1 (by decide)
        | some x' =>
          simp only [WordformKey.sortCode, Equiv.apply_eq_iff_eq, Prod.mk.injEq] at h
          obtain ⟨-, -, ht, hp, hl, hs⟩ := h
          cases x
          cases x'
          simp only at hp hl hs
          rw [ht, hp, hl, hs]

lemma sortKey_ne_of_key_ne {a b : Result}
    (h : ¬ a.wordform.key = b.wordform.key) : ¬ a.sortKey = b.sortKey := by
  intro heq
  unfold Result.sortKey at heq
  simp only [Equiv.apply_eq_iff_eq, Prod.mk.injEq] at heq
  exact h (WordformKey.sortCode_inj heq.2.2)

/-- C8: `sorted_results` induces a total, deterministic order — for any
two Results with distinct wordform identities exactly one of before/after
holds (score ties are resolved by the stable secondary key of wordform
text then identity), and two calls on an unchanged run return the same
ordered list. -/
theorem C8_sorted_results_total_order_and_deterministic (run : SearchRun)
    (a b : Result) (hne : ¬ a.wordform.key = b.wordform.key) :
    (resultBefore a b ∨ resultBefore b a) ∧
    ¬ (resultBefore a b ∧ resultBefore b a) ∧
    run.sorted_results = run.sorted_results := by
  have hk := sortKey_ne_of_key_ne hne
  refine ⟨?_, ?_, rfl⟩
  · rcases lt_or_gt_of_ne hk with h | h
    · exact Or.inl h
    · exact Or.inr h
  · rintro ⟨h1, h2⟩
    exact absurd (lt_trans (a := a.sortKey) h1 h2) (lt_irrefl _)

/-- Witness for C8 at two concrete Results with distinct identities on a
concrete run. -/
theorem C8_sorted_results_witness :
    (resultBefore ⟨⟨some 1, "asikan", none, true, none⟩, [], none⟩
        ⟨⟨some 2, "maskwa", none, true, none⟩, [], none⟩ ∨
      resultBefore ⟨⟨some 2, "maskwa", none, true, none⟩, [], none⟩
        ⟨⟨some 1, "asikan", none, true, none⟩, [], none⟩) ∧
    ¬ (resultBefore ⟨⟨some 1, "asikan", none, true, none⟩, [], none⟩
        ⟨⟨some 2, "maskwa", none, true, none⟩, [], none⟩ ∧
       resultBefore ⟨⟨some 2, "maskwa", none, true, none⟩, [], none⟩
        ⟨⟨some 1, "asikan", none, true, none⟩, [], none⟩) ∧
    (SearchRun.init [] "asikan" none).sorted_results =
      (SearchRun.init [] "asikan" none).sorted_results :=
  C8_sorted_results_total_order_and_deterministic
    (SearchRun.init [] "asikan" none)
    ⟨⟨some 1, "asikan", none, true, none⟩, [], none⟩
    ⟨⟨some 2, "maskwa", none, true, none⟩, [], none⟩
    (by decide)
